import Mathlib

/-!
Verification development for the trading-mcp-server repository.

Shallow embedding conventions:
* A JavaScript number is modelled by `JsNum := Option ℚ`; `none` stands for
  the non-finite values (NaN / Infinity), which the source detects with
  `Number.isFinite` and treats uniformly as the "undefined" sentinel.
  Arithmetic on `JsNum` propagates `none`, matching NaN propagation.
* JavaScript strings are modelled as `List Char`; `String.prototype.includes`
  is substring (infix) containment, `trim` drops whitespace at both ends,
  `toUpperCase`/`toLowerCase` are the per-character ASCII case maps.
* Epoch-millisecond timestamps are modelled as `ℤ` or `ℚ` as noted at each
  definition.
-/

/-- A JavaScript number: `some q` is the finite value `q`, `none` is NaN
(or any other non-finite value). -/
abbrev JsNum := Option ℚ

/-- NaN-propagating addition. -/
def jadd : JsNum → JsNum → JsNum
  | some a, some b => some (a + b)
  | _, _ => none

/-- NaN-propagating subtraction. -/
def jsub : JsNum → JsNum → JsNum
  | some a, some b => some (a - b)
  | _, _ => none

/-- NaN-propagating multiplication. -/
def jmul : JsNum → JsNum → JsNum
  | some a, some b => some (a * b)
  | _, _ => none

/-- NaN-propagating division; division by zero yields a non-finite value in
JavaScript, hence `none`. -/
def jdiv : JsNum → JsNum → JsNum
  | some a, some b => if b = 0 then none else some (a / b)
  | _, _ => none

/-- Source `Math.max(0, x)`: NaN in, NaN out. -/
def jmax0 : JsNum → JsNum
  | some a => some (max 0 a)
  | none => none

/-- Unary minus on a JS number. -/
def jneg : JsNum → JsNum
  | some a => some (-a)
  | none => none

/-! ## Time-Series Indicator Engine (src/utils/indicators.ts) -/

/-- One OHLC candle (`MarketCandle`).  The time `t` is an epoch-ms value; the
price fields are JS numbers (`none` = non-finite, as produced by `toNumber`). -/
structure MarketCandle where
  t : ℚ
  o : JsNum
  h : JsNum
  l : JsNum
  c : JsNum
  v : JsNum
deriving DecidableEq

/-- Loop body of `sma`: index `i` walks the input, `sum` is the running
window sum (a JS number, so a NaN input poisons it exactly as in the source). -/
def smaAux (values : List JsNum) (period : ℕ) (i : ℕ) (sum : JsNum) : List JsNum :=
  if h : i < values.length then
    match values.get ⟨i, h⟩ with
    | none => none :: smaAux values period (i + 1) sum
    | some v =>
        let sum1 := jadd sum (some v)
        let sum2 := if period ≤ i then jsub sum1 (values.getD (i - period) none) else sum1
        let o : JsNum := if period - 1 ≤ i then jdiv sum2 (some (period : ℚ)) else none
        o :: smaAux values period (i + 1) sum2
  else []
termination_by values.length - i

/-- Source `sma(values, period)`: trailing arithmetic mean, NaN before warm-up. -/
def sma (values : List JsNum) (period : ℕ) : List JsNum :=
  smaAux values period 0 (some 0)

/-- Loop body of `ema`: `prev = none` means "not seeded yet" (the original
`prev == null`); a non-finite input re-emits `prev ?? NaN`. -/
def emaAux (k : ℚ) (values : List JsNum) (i : ℕ) (prev : Option ℚ) : List JsNum :=
  if h : i < values.length then
    match values.get ⟨i, h⟩ with
    | none => prev :: emaAux k values (i + 1) prev
    | some v =>
        let p := match prev with
          | none => v
          | some pv => v * k + pv * (1 - k)
        some p :: emaAux k values (i + 1) (some p)
  else []
termination_by values.length - i

/-- Source `ema(values, period)` with smoothing constant `k = 2/(period+1)`. -/
def ema (values : List JsNum) (period : ℕ) : List JsNum :=
  emaAux (2 / ((period : ℚ) + 1)) values 0 none

/-- Accumulation loop of `rsi`: sums gains and losses over deltas
`i = 1 .. stop` (the original `for (i = 1; i <= min(period, len-1); i++)`). -/
def rsiAccGo (closes : List JsNum) (stop : ℕ) (i : ℕ) (g l : JsNum) : JsNum × JsNum :=
  if i ≤ stop then
    let change := jsub (closes.getD i none) (closes.getD (i - 1) none)
    rsiAccGo closes stop (i + 1) (jadd g (jmax0 change)) (jadd l (jmax0 (jneg change)))
  else (g, l)
termination_by stop + 1 - i

/-- Smoothing loop of `rsi` for `i = period+1 .. len-1` with Wilder updates. -/
def rsiLoop (closes : List JsNum) (period : ℕ) (i : ℕ) (g l : JsNum) : List JsNum :=
  if _h : i < closes.length then
    let change := jsub (closes.getD i none) (closes.getD (i - 1) none)
    let gain := jmax0 change
    let loss := jmax0 (jneg change)
    let g1 := jdiv (jadd (jmul g (some ((period : ℚ) - 1))) gain) (some (period : ℚ))
    let l1 := jdiv (jadd (jmul l (some ((period : ℚ) - 1))) loss) (some (period : ℚ))
    let rs := if l1 = some 0 then some (100 : ℚ) else jdiv g1 l1
    let r := jsub (some 100) (jdiv (some 100) (jadd (some 1) rs))
    r :: rsiLoop closes period (i + 1) g1 l1
  else []
termination_by closes.length - i

/-- Tail of `rsi` on the `closes.length > period` path: first RSI point from
the seeded averages `g`, `l`, then the smoothing loop, then the final
length-alignment step of the source. -/
def rsiTail (closes : List JsNum) (period : ℕ) (out1 : List JsNum) (g l : JsNum) :
    List JsNum :=
  let rs := if l = some 0 then some (100 : ℚ) else jdiv g l
  let rsi0 := jsub (some 100) (jdiv (some 100) (jadd (some 1) rs))
  let out := out1 ++ rsi0 :: rsiLoop closes period (period + 1) g l
  if out.length < closes.length then
    List.replicate (closes.length - out.length) none ++ out
  else out

/-- Source `rsi(closes, period)`: Wilder smoothing, output aligned to the input
length by leading-NaN padding exactly as in the source. -/
def rsi (closes : List JsNum) (period : ℕ) : List JsNum :=
  if closes.length = 0 then []
  else
    let stop := min period (closes.length - 1)
    let gl := rsiAccGo closes stop 1 (some 0) (some 0)
    let out1 : List JsNum := List.replicate stop none
    if closes.length ≤ period then
      List.replicate (closes.length - out1.length) none ++ out1
    else
      rsiTail closes period out1 (jdiv gl.1 (some (period : ℚ)))
        (jdiv gl.2 (some (period : ℚ)))

/-- First pass of `atr`: the true-range series.  A candle with a non-finite
high/low/close contributes NaN and leaves `prevClose` untouched. -/
def trsAux (candles : List MarketCandle) (i : ℕ) (prevClose : Option ℚ) : List JsNum :=
  if h : i < candles.length then
    let cd := candles.get ⟨i, h⟩
    match cd.h, cd.l, cd.c with
    | some hi, some lo, some cl =>
        let tr := match prevClose with
          | none => hi - lo
          | some pc => max (hi - lo) (max |hi - pc| |lo - pc|)
        some tr :: trsAux candles (i + 1) (some cl)
    | _, _, _ => none :: trsAux candles (i + 1) prevClose
  else []
termination_by candles.length - i

/-- Second pass of `atr`: Wilder smoothing over the true ranges.  The source
keeps `prevAtr` as a number that can itself be NaN (window of length 0);
both that case and `prevAtr == null` emit NaN, so `none` models both. -/
def atrLoop (trs : List JsNum) (period : ℕ) (i : ℕ) (prevAtr : Option ℚ) : List JsNum :=
  if h : i < trs.length then
    match trs.get ⟨i, h⟩ with
    | none => none :: atrLoop trs period (i + 1) prevAtr
    | some tr =>
        if i < period then none :: atrLoop trs period (i + 1) prevAtr
        else if i = period then
          let window := (trs.drop 1).take period
          let s : ℚ := (window.map (fun o => o.getD 0)).sum
          let v : JsNum := if window.length = 0 then none else some (s / (window.length : ℚ))
          v :: atrLoop trs period (i + 1) v
        else
          match prevAtr with
          | none => none :: atrLoop trs period (i + 1) none
          | some pa =>
              let na := (pa * ((period : ℚ) - 1) + tr) / (period : ℚ)
              some na :: atrLoop trs period (i + 1) (some na)
  else []
termination_by trs.length - i

/-- Source `atr(candles, period)`. -/
def atr (candles : List MarketCandle) (period : ℕ) : List JsNum :=
  atrLoop (trsAux candles 0 none) period 0 none

/-- The `while (lo <= hi)` binary-search loop of `findCandleIndexAtOrBefore`;
`(lo + hi) >> 1` is floor division by 2, and out-of-loop it returns
`Math.max(0, lo - 1)`. -/
def fcLoop (ts : List ℚ) (tsq : ℚ) (lo hi : ℤ) : ℤ :=
  if h : lo ≤ hi then
    let mid := (lo + hi).ediv 2
    let t := ts.getD mid.toNat 0
    if t = tsq then mid
    else if t < tsq then fcLoop ts tsq (mid + 1) hi
    else fcLoop ts tsq lo (mid - 1)
  else max 0 (lo - 1)
termination_by (hi + 1 - lo).toNat
decreasing_by
  · have h1 : 2 * lo ≤ lo + hi := by omega
    have h2 := Int.ediv_le_ediv (by norm_num : (0 : ℤ) < 2) h1
    rw [Int.mul_ediv_cancel_left lo (by norm_num)] at h2
    have h3 : lo + hi ≤ 2 * hi := by omega
    have h4 := Int.ediv_le_ediv (by norm_num : (0 : ℤ) < 2) h3
    rw [Int.mul_ediv_cancel_left hi (by norm_num)] at h4
    have h5 : lo ≤ (lo + hi).ediv 2 := h2
    have h6 : (lo + hi).ediv 2 ≤ hi := h4
    omega
  · have h3 : lo + hi ≤ 2 * hi := by omega
    have h4 := Int.ediv_le_ediv (by norm_num : (0 : ℤ) < 2) h3
    rw [Int.mul_ediv_cancel_left hi (by norm_num)] at h4
    have h6 : (lo + hi).ediv 2 ≤ hi := h4
    omega

/-- Source `findCandleIndexAtOrBefore(candles, timestampMs)`: index of the latest
candle with `t <= timestampMs`; `0` if the timestamp precedes all candles,
the last index if it follows all, `-1` on an empty series. -/
def findCandleIndexAtOrBefore (candles : List MarketCandle) (tsq : ℚ) : ℤ :=
  if candles.length = 0 then -1
  else
    let ts := candles.map MarketCandle.t
    let hi : ℤ := (candles.length : ℤ) - 1
    if tsq ≤ ts.getD 0 0 then 0
    else if ts.getD hi.toNat 0 ≤ tsq then hi
    else fcLoop ts tsq 0 hi

/-- The time of the `k`-th candle (`Number(candles[k].t)`), with default 0
out of range; only in-range uses appear in the theorems. -/
def timeAt (candles : List MarketCandle) (k : ℕ) : ℚ :=
  (candles.map MarketCandle.t).getD k 0

/-! ## Symbol Normalizer (src/utils/symbol-mapper.ts) -/

/-- Source `String.prototype.trim`: drop whitespace from both ends. -/
def jsTrim (s : List Char) : List Char :=
  ((s.dropWhile Char.isWhitespace).reverse.dropWhile Char.isWhitespace).reverse

/-- Source `String.prototype.toUpperCase` restricted to the per-character map. -/
def jsToUpper (s : List Char) : List Char := s.map Char.toUpper

/-- Source `normalizeJournalSymbol`: falsy (empty) input returned as is; otherwise
trim, uppercase and strip one trailing `+`. -/
def normalizeJournalSymbol (s : List Char) : List Char :=
  if s = [] then s
  else
    let u := jsToUpper (jsTrim s)
    if u.getLast? = some '+' then u.dropLast else u

/-- Source `CUSTOM_MAP[normalized] || normalized`: the fixed substitution table maps
the CFD code USOUSD to the standard WTI ticker XTIUSD. -/
def customMapLookup (s : List Char) : List Char :=
  if s = "USOUSD".toList then "XTIUSD".toList else s

/-- A character kept by the `replace(/[^A-Z0-9]/g, '')` step. -/
def isTickerChar (c : Char) : Bool :=
  ('A' ≤ c && c ≤ 'Z') || ('0' ≤ c && c ≤ '9')

/-- Default market prefix of `mapToPolygonForexTicker`. -/
def defaultForexPrefix : List Char := "C:".toList

/-- Source `mapToPolygonForexTicker(symbol, forexPrefix)`. -/
def mapToPolygonForexTicker (symbol : List Char) (forexPrefix : List Char) : List Char :=
  let normalized := normalizeJournalSymbol symbol
  if ':' ∈ normalized then normalized
  else forexPrefix ++ (customMapLookup normalized).filter isTickerChar

/-! ## Period Analysis Orchestrator (src/controllers/trading.controller.ts) -/

/-- Bar width of OHLC data. -/
inductive Timespan where
  | minute
  | hour
  | day
deriving DecidableEq

/-- Source `MAX_RANGE_DAYS`: per-granularity cap on the request range, in days. -/
def MAX_RANGE_DAYS : Timespan → ℤ
  | .minute => 7
  | .hour => 30
  | .day => 365

/-- The `from`/`to` field of a request: absent or empty (falsy), present but
unparsable (`Date` gives NaN), or a parsed epoch-ms value. -/
inductive DateField where
  | missing
  | invalid
  | ok (ms : ℤ)
deriving DecidableEq

/-- Source `diffDaysUTC` on two parsed epochs: `Math.max(0, Math.ceil((to-from)/day))`;
the ceiling is written with floor division so that it evaluates, and
`diffDaysUTC_eq_ceil` below proves it equal to the ceiling form. -/
def diffDaysUTC (fromMs toMs : ℤ) : ℤ :=
  max 0 (-((fromMs - toMs) / (24 * 60 * 60 * 1000)))

/-- One trade of an analysis request.  `profit = none` models an absent, null
or otherwise falsy profit as well as a non-numeric one: in every such case
`Number(t?.profit || 0)` evaluates to 0. -/
structure Trade where
  symbol : Option (List Char)
  profit : Option ℚ
  id : Option (List Char)
deriving DecidableEq

/-- The request body fields used by `analyzePeriod`. -/
structure AnalysisRequestBody where
  symbols : List (List Char)
  trades : List Trade
  fromField : DateField
  toField : DateField
  timespan : Option Timespan
deriving DecidableEq

/-- Source `body.timespan || 'day'`. -/
def timespanOf (b : AnalysisRequestBody) : Timespan := b.timespan.getD .day

/-- Source `Set.add` for the insertion-ordered symbol set. -/
def addSymbolUnique (acc : List (List Char)) (s : List Char) : List (List Char) :=
  if s ∈ acc then acc else acc ++ [s]

/-- The symbol set of `analyzePeriod`: truthy entries of `body.symbols`, then
truthy trade symbols, deduplicated in insertion order (`Array.from(set)`). -/
def symbolSetOf (b : AnalysisRequestBody) : List (List Char) :=
  ((b.symbols.filter (fun s => !s.isEmpty)) ++
    ((b.trades.filterMap Trade.symbol).filter (fun s => !s.isEmpty))).foldl
    addSymbolUnique []

/-- Source `Number(t?.profit || 0)`. -/
def tradeProfit (t : Trade) : ℚ := t.profit.getD 0

/-- Source `structuredInsights.metrics` of the response. -/
structure Metrics where
  tradesCount : ℕ
  wins : ℕ
  winRate : ℚ
  totalProfit : ℚ
  avgProfit : ℚ
deriving DecidableEq

/-- The server-side metrics block of `analyzePeriod` (lines 544-550). -/
def metricsOf (trades : List Trade) : Metrics :=
  let profits := trades.map tradeProfit
  let tradesCount := profits.length
  let totalProfit := profits.foldl (· + ·) 0
  let wins := (profits.filter (fun p => decide (0 < p))).length
  let winRate : ℚ := if tradesCount = 0 then 0 else (wins : ℚ) / (tradesCount : ℚ)
  let avgProfit : ℚ := if tradesCount = 0 then 0 else totalProfit / (tradesCount : ℚ)
  ⟨tradesCount, wins, winRate, totalProfit, avgProfit⟩

/-- Source `structuredInsights` of the response (symbols normalized per source). -/
structure StructuredInsights where
  symbols : List (List Char)
  metrics : Metrics
deriving DecidableEq

/-- Source `structuredInsights` is computed from the request body alone. -/
def structuredInsightsOf (b : AnalysisRequestBody) : StructuredInsights :=
  ⟨(symbolSetOf b).map normalizeJournalSymbol, metricsOf b.trades⟩

/-- An error response sent via `handleError` (status + message tag). -/
structure ErrResp where
  status : ℕ
  tag : ℕ
deriving DecidableEq

/-- An upstream side effect of the pipeline after validation. -/
inductive Effect where
  | fetchCandles (sym : List Char)
deriving DecidableEq

/-- Outcome of one `analyzePeriod` run: a client error (and then no upstream
fetch happened and no cache/storage was touched), or the list of candle
fetches the fan-out stage issues. -/
structure AnalyzeRun where
  error : Option ErrResp
  upstreamFetches : List Effect
deriving DecidableEq

/-- The validation prefix of `analyzePeriod`, in source order: missing
symbols, missing `from`/`to`, unparsable dates, range cap. -/
def analyzeValidate (b : AnalysisRequestBody) : Option ErrResp :=
  if (symbolSetOf b).length = 0 then some ⟨400, 0⟩
  else if b.fromField = .missing ∨ b.toField = .missing then some ⟨400, 1⟩
  else
    match b.fromField, b.toField with
    | .ok f, .ok t =>
        if diffDaysUTC f t > MAX_RANGE_DAYS (timespanOf b) then some ⟨400, 3⟩
        else none
    | _, _ => some ⟨400, 2⟩

/-- Source `analyzePeriod` up to the candle fan-out: a validation failure returns
the 400 response before any upstream fetch. -/
def analyzePeriodRun (b : AnalysisRequestBody) : AnalyzeRun :=
  match analyzeValidate b with
  | some e => ⟨some e, []⟩
  | none => ⟨none, (symbolSetOf b).map Effect.fetchCandles⟩

/-- The end-to-end scenario request of the spec: `from=2024-09-01`
(epoch 1725148800000), `to=2024-09-10` (epoch 1725926400000),
`timespan=day`, one trade on `EURUSD+` with profit 45.5. -/
def c2Body : AnalysisRequestBody :=
  { symbols := []
    trades := [⟨some "EURUSD+".toList, some (91 / 2), some "1".toList⟩]
    fromField := .ok 1725148800000
    toField := .ok 1725926400000
    timespan := some .day }

/-! ## Market Data Gateway retry policy (src/services/polygon.service.ts) -/

/-- Classification of one failed fetch, as computed by `fetchWithRetry` from
the error message: the timeout regex, the transient-network regex, and the
`HTTP (\d{3})` status match. -/
structure RetryErr where
  timeout : Bool
  transient : Bool
  status : Option ℕ
deriving DecidableEq

/-- Source `status === 429 || status >= 500`. -/
def retryableByStatus : Option ℕ → Bool
  | some n => decide (n = 429) || decide (500 ≤ n)
  | none => false

/-- Source `timeout || transient || retryableByStatus`. -/
def isRetryable (e : RetryErr) : Bool :=
  e.timeout || e.transient || retryableByStatus e.status

/-- Observable outcome of the retry loop: eventual success, or a thrown
`ErrorHandler` with its HTTP-like code; `delays` records every backoff
sleep performed, in order. -/
inductive RetryOutcome where
  | success (delays : List ℕ)
  | thrown (code : ℕ) (delays : List ℕ)
deriving DecidableEq

/-- The `while (true)` loop of `fetchWithRetry`: `failures` is the sequence
of consecutive upstream failures (once it is exhausted the next call
succeeds); `attempt` is the counter incremented on each failure. -/
def fetchWithRetryGo (maxRetries base : ℕ) : ℕ → List RetryErr → RetryOutcome
  | _, [] => .success []
  | attempt, e :: rest =>
    let attempt1 := attempt + 1
    if isRetryable e = false then .thrown (e.status.getD 502) []
    else if maxRetries < attempt1 then
      .thrown (if e.timeout then 504 else e.status.getD 502) []
    else
      let delay := base * 2 ^ (attempt1 - 1)
      match fetchWithRetryGo maxRetries base attempt1 rest with
      | .success ds => .success (delay :: ds)
      | .thrown c ds => .thrown c (delay :: ds)

/-- Source `fetchWithRetry` starts with `attempt = 0`. -/
def fetchWithRetry (maxRetries base : ℕ) (failures : List RetryErr) : RetryOutcome :=
  fetchWithRetryGo maxRetries base 0 failures

/-- The exponential backoff schedule `base * 2^(attempt-1)` for the retries
after failures number `start+1 .. start+n`. -/
def backoffDelays (base n start : ℕ) : List ℕ :=
  (List.range n).map (fun i => base * 2 ^ (start + i))

/-! ## News Relevance Engine (src/services/news.service.ts, getNewsDigest) -/

/-- Source `String.prototype.toLowerCase` restricted to the per-character map. -/
def jsToLower (s : List Char) : List Char := s.map Char.toLower

/-- Source `text.includes(pat)`: substring containment. -/
def includesStr (text pat : List Char) : Bool := decide (pat <:+: text)

/-- A candidate article after merge/deduplication: title, description, url,
and the parsed `publishedAt` epoch (`none` when absent, in which case the
source substitutes `Date.now()`). -/
structure RawArticle where
  title : List Char
  descr : List Char
  url : List Char
  publishedAt : Option ℚ
deriving DecidableEq

/-- Source `(title + ' ' + description).toLowerCase()`. -/
def articleText (a : RawArticle) : List Char :=
  jsToLower (a.title ++ ' ' :: a.descr)

/-- The keyword-hit loop: count keywords contained in the text, breaking
once the counter reaches 5. -/
def keywordHitsGo (text : List Char) : List (List Char) → ℕ → ℕ
  | [], hits => hits
  | kw :: rest, hits =>
    if kw ≠ [] ∧ includesStr text kw = true then
      if 5 ≤ hits + 1 then hits + 1 else keywordHitsGo text rest (hits + 1)
    else keywordHitsGo text rest hits

/-- Source `Math.min(1, Math.max(0, (t - fromMs)/spanMs))`. -/
def recencyFrac (fromMs spanMs t : ℚ) : ℚ :=
  min 1 (max 0 ((t - fromMs) / spanMs))

/-- The relevance score of one candidate: +3 for a symbol mention, +1 per
keyword hit (capped at 5), + up to 2 for recency. -/
def scoreArticle (symLower : List Char) (kwLower : List (List Char))
    (fromMs spanMs nowMs : ℚ) (a : RawArticle) : ℚ :=
  let text := articleText a
  let base : ℚ := if includesStr text symLower then 3 else 0
  let hits := keywordHitsGo text kwLower 0
  let t := a.publishedAt.getD nowMs
  base + hits + recencyFrac fromMs spanMs t * 2

/-- A scored candidate (`{ a, score, t }`). -/
structure ScoredArticle where
  art : RawArticle
  score : ℚ
  t : ℚ
deriving DecidableEq

/-- Source `merged.map(a => ({a, score, t}))`. -/
def newsScored (symLower : List Char) (kwLower : List (List Char))
    (fromMs spanMs nowMs : ℚ) (merged : List RawArticle) : List ScoredArticle :=
  merged.map (fun a =>
    ⟨a, scoreArticle symLower kwLower fromMs spanMs nowMs a, a.publishedAt.getD nowMs⟩)

/-- The sort comparator `(x, y) => (y.score - x.score) || (y.t - x.t)` as a
"stays before or equal" relation: score descending, tie-break publish time
descending. -/
def newsCmp (x y : ScoredArticle) : Bool :=
  decide (y.score < x.score ∨ (x.score = y.score ∧ y.t ≤ x.t))

/-- Source `scored.sort(cmp).slice(0, maxPerSymbol)` (JS sort is stable, so the
stable `mergeSort` is its model), mapped back to the articles. -/
def newsSelect (symLower : List Char) (kwLower : List (List Char))
    (fromMs spanMs nowMs : ℚ) (maxPerSymbol : ℕ)
    (merged : List RawArticle) : List RawArticle :=
  (((newsScored symLower kwLower fromMs spanMs nowMs merged).mergeSort newsCmp).take
    maxPerSymbol).map ScoredArticle.art

/-! ## LLM Orchestrator (src/services/gemini.service.ts, analyzeTradingDataJSON) -/

/-- Outcome of one `tryOnce` model call: a transport/model/timeout error
(the promise rejects), or the returned text. -/
inductive CallAttempt where
  | raised
  | returned (text : List Char)
deriving DecidableEq

/-- The static configuration of the service relevant to the JSON flow. -/
structure GeminiConfig where
  initialized : Bool
  modelName : List Char
  fallbackModel : Option (List Char)
deriving DecidableEq

/-- The structured result of `analyzeTradingDataJSON` (`meta` reduced to the
model name actually used). -/
structure JsonResult (α : Type) where
  ai : Option α
  rawText : Option (List Char)
  error : Option (List Char)
  model : Option (List Char)
deriving DecidableEq

/-- The fallback-model block of the outer catch: one full attempt against
the fallback model (prompt rebuild, call, parse+validate), returning
`invalid_json` with the raw text, the parsed result, or falling through to
`json_analysis_failed`. -/
def geminiFallbackFlowCore {α : Type} (modelName : List Char)
    (fallbackModel : Option (List Char))
    (parse : List Char → Except (List Char) α) (fb : CallAttempt) :
    JsonResult α × List (List Char) :=
  match fallbackModel with
  | some f =>
    if f ≠ modelName then
      match fb with
      | .returned t =>
        match parse t with
        | .ok ai => (⟨some ai, none, none, some f⟩, [f])
        | .error _ => (⟨none, some t, some "invalid_json".toList, some f⟩, [f])
      | .raised => (⟨none, none, some "json_analysis_failed".toList, none⟩, [f])
    else (⟨none, none, some "json_analysis_failed".toList, none⟩, [])
  | none => (⟨none, none, some "json_analysis_failed".toList, none⟩, [])

/-- The fallback block applied to the service configuration. -/
def geminiFallbackFlow {α : Type} (cfg : GeminiConfig)
    (parse : List Char → Except (List Char) α) (fb : CallAttempt) :
    JsonResult α × List (List Char) :=
  geminiFallbackFlowCore cfg.modelName cfg.fallbackModel parse fb

/-- Source `analyzeTradingDataJSON`, driven by the oracle outcomes of the three
possible model calls (`first` = initial attempt, `second` = the stricter
reprompt, `fb` = the fallback-model attempt) and by the composite
`JSON.parse` + `validateAiResult` classifier `parse`.  The `Except Unit`
layer models a thrown exception; the second component lists the models
called after the primary flow failed (the fallback trace). -/
def analyzeTradingDataJSON {α : Type} (cfg : GeminiConfig)
    (parse : List Char → Except (List Char) α)
    (first second fb : CallAttempt) :
    Except Unit (JsonResult α × List (List Char)) :=
  if cfg.initialized = false then .error ()
  else
    match first with
    | .returned t1 =>
      match parse t1 with
      | .ok ai => .ok (⟨some ai, none, none, some cfg.modelName⟩, [])
      | .error _ =>
        match second with
        | .returned t2 =>
          match parse t2 with
          | .ok ai => .ok (⟨some ai, none, none, some cfg.modelName⟩, [])
          | .error r2 => .ok (⟨none, some t2, some r2, some cfg.modelName⟩, [])
        | .raised => .ok (geminiFallbackFlow cfg parse fb)
    | .raised => .ok (geminiFallbackFlow cfg parse fb)

/-! ## Macro Series Store (src/repositories/macro.repo.ts, upsertObservation) -/

/-- One `MacroObservation` row. -/
structure MacroObservation where
  seriesId : ℕ
  date : ℤ
  value : ℚ
  revisionSeq : ℕ
  isLatest : Bool
deriving DecidableEq

/-- One `MacroLatest` row (one per series). -/
structure MacroLatestRow where
  seriesId : ℕ
  date : ℤ
  value : ℚ
  revisionSeq : ℕ
deriving DecidableEq

/-- The relevant storage state: the observation table and the MacroLatest
table. -/
structure MacroState where
  observations : List MacroObservation
  latest : List MacroLatestRow
deriving DecidableEq

/-- The `prisma.macroObservation.upsert` keyed by
`(seriesId, date, revisionSeq)`: update value/isLatest in place, or insert a
new row with `isLatest: true`. -/
def upsertObsRow (rows : List MacroObservation) (sid : ℕ) (date : ℤ) (value : ℚ)
    (revisionSeq : ℕ) : List MacroObservation :=
  if rows.any (fun o => o.seriesId = sid ∧ o.date = date ∧ o.revisionSeq = revisionSeq) then
    rows.map (fun o =>
      if o.seriesId = sid ∧ o.date = date ∧ o.revisionSeq = revisionSeq then
        { o with value := value, isLatest := true }
      else o)
  else rows ++ [⟨sid, date, value, revisionSeq, true⟩]

/-- The `prisma.macroLatest.upsert` keyed by `seriesId`: overwrite the row
with the incoming date/value/revisionSeq, or insert it. -/
def upsertLatestRow (rows : List MacroLatestRow) (sid : ℕ) (date : ℤ) (value : ℚ)
    (revisionSeq : ℕ) : List MacroLatestRow :=
  if rows.any (fun r => r.seriesId = sid) then
    rows.map (fun r => if r.seriesId = sid then ⟨sid, date, value, revisionSeq⟩ else r)
  else rows ++ [⟨sid, date, value, revisionSeq⟩]

/-- Source `upsertObservation(seriesId, date, value, revisionSeq)`: upsert the
observation row with `isLatest: true`, then blindly overwrite MacroLatest —
the code never marks the previous latest row as not-latest, despite its own
comment saying so. -/
def upsertObservation (sid : ℕ) (date : ℤ) (value : ℚ) (revisionSeq : ℕ)
    (st : MacroState) : MacroState :=
  { observations := upsertObsRow st.observations sid date value revisionSeq
    latest := upsertLatestRow st.latest sid date value revisionSeq }

/-- The empty storage state. -/
def macroEmpty : MacroState := ⟨[], []⟩

/-- A 2-candle input series for the C4 witness. -/
def c4Candles : List MarketCandle :=
  [⟨0, some 1, some 2, some 0, some 1, none⟩,
   ⟨1, some 1, some 2, some 0, some 1, none⟩]

/-- The two C5 witness articles: identical except that the description of `wa`
additionally mentions the symbol. -/
def c5ArticleA : RawArticle := ⟨"x".toList, "y eurusd".toList, "u1".toList, none⟩

/-- The non-mentioning witness article. -/
def c5ArticleB : RawArticle := ⟨"x".toList, "y".toList, "u2".toList, none⟩

/-- A 3-candle series at times 0, 10, 20 for the C6 witness. -/
def c6Candles : List MarketCandle :=
  [⟨0, none, none, none, none, none⟩,
   ⟨10, none, none, none, none, none⟩,
   ⟨20, none, none, none, none, none⟩]

/-- The C8 witness configuration: initialized, primary model `m`, fallback
model `f`. -/
def c8Cfg : GeminiConfig := ⟨true, "m".toList, some "f".toList⟩

/-- The C8 witness parser: only the text `ok` parses. -/
def c8Parse : List Char → Except (List Char) ℕ :=
  fun t => if t = "ok".toList then .ok 1 else .error "bad".toList

theorem smaAux_length (values : List JsNum) (period : ℕ) (i : ℕ) (sum : JsNum) :
    (smaAux values period i sum).length = values.length - i := by
  induction i, sum using smaAux.induct values period with
  | case1 i sum hlt hget ih =>
    rw [smaAux]
    simp only [hlt, dif_pos, hget, List.length_cons, ih]
    omega
  | case2 i sum hlt v hget sum1 sum2 ih =>
    have ih2 : (smaAux values period (i + 1)
        (if period ≤ i then jsub (jadd sum (some v)) (values.getD (i - period) none)
         else jadd sum (some v))).length = values.length - (i + 1) := ih
    rw [smaAux]
    simp only [hlt, dif_pos, hget, List.length_cons, ih2]
    omega
  | case3 i sum hlt =>
    rw [smaAux, dif_neg hlt]
    simp only [List.length_nil]
    omega

theorem sma_length (values : List JsNum) (period : ℕ) :
    (sma values period).length = values.length := by
  simpa using smaAux_length values period 0 (some 0)

theorem smaAux_warmup (values : List JsNum) (period : ℕ) (i : ℕ) (sum : JsNum) :
    ∀ j, j < values.length - i → i + j + 1 < period →
      (smaAux values period i sum)[j]? = some none := by
  induction i, sum using smaAux.induct values period with
  | case1 i sum hlt hget ih =>
    intro j hj hp
    rw [smaAux]
    simp only [hlt, dif_pos, hget]
    cases j with
    | zero => simp
    | succ j => simpa using ih j (by omega) (by omega)
  | case2 i sum hlt v hget sum1 sum2 ih =>
    have ih2 : ∀ j, j < values.length - (i + 1) → (i + 1) + j + 1 < period →
        (smaAux values period (i + 1)
          (if period ≤ i then jsub (jadd sum (some v)) (values.getD (i - period) none)
           else jadd sum (some v)))[j]? = some none := ih
    intro j hj hp
    rw [smaAux]
    simp only [hlt, dif_pos, hget]
    cases j with
    | zero =>
        have hnot : ¬ period - 1 ≤ i := by omega
        simp [hnot]
    | succ j => simpa using ih2 j (by omega) (by omega)
  | case3 i sum hlt =>
    intro j hj hp
    omega

theorem sma_warmup (values : List JsNum) (period : ℕ) :
    ∀ j, j < values.length → j + 1 < period → (sma values period)[j]? = some none := by
  intro j hj hp
  simpa using smaAux_warmup values period 0 (some 0) j (by omega) (by omega)

theorem emaAux_length (k : ℚ) (values : List JsNum) (i : ℕ) (prev : Option ℚ) :
    (emaAux k values i prev).length = values.length - i := by
  induction i, prev using emaAux.induct k values with
  | case1 i prev hlt hget ih =>
    rw [emaAux]
    simp only [hlt, dif_pos, hget, List.length_cons, ih]
    omega
  | case2 i prev hlt v hget p ih =>
    have ih2 : (emaAux k values (i + 1)
        (some (match prev with | none => v | some pv => v * k + pv * (1 - k)))).length
        = values.length - (i + 1) := ih
    rw [emaAux]
    simp only [hlt, dif_pos, hget, List.length_cons, ih2]
    omega
  | case3 i prev hlt =>
    rw [emaAux, dif_neg hlt]
    simp only [List.length_nil]
    omega

theorem ema_length (values : List JsNum) (period : ℕ) :
    (ema values period).length = values.length := by
  simpa using emaAux_length (2 / ((period : ℚ) + 1)) values 0 none

theorem rsiLoop_length (closes : List JsNum) (period : ℕ) (i : ℕ) (g l : JsNum) :
    (rsiLoop closes period i g l).length = closes.length - i := by
  induction i, g, l using rsiLoop.induct closes period with
  | case1 i g l hlt change gain loss g1 l1 ih =>
    have ih2 : (rsiLoop closes period (i + 1)
        (jdiv (jadd (jmul g (some ((period : ℚ) - 1)))
          (jmax0 (jsub (closes.getD i none) (closes.getD (i - 1) none)))) (some (period : ℚ)))
        (jdiv (jadd (jmul l (some ((period : ℚ) - 1)))
          (jmax0 (jneg (jsub (closes.getD i none) (closes.getD (i - 1) none)))))
          (some (period : ℚ)))).length = closes.length - (i + 1) := ih
    rw [rsiLoop]
    simp only [hlt, dif_pos, List.length_cons]
    rw [ih2]
    omega
  | case2 i g l hlt =>
    rw [rsiLoop, dif_neg hlt]
    simp only [List.length_nil]
    omega

theorem rsiTail_length (closes : List JsNum) (period : ℕ) (out1 : List JsNum)
    (g l : JsNum) (hout1 : out1.length = period) (hplt : period < closes.length) :
    (rsiTail closes period out1 g l).length = closes.length := by
  rw [rsiTail]
  have hlen : (out1 ++
      jsub (some 100) (jdiv (some 100) (jadd (some 1)
        (if l = some 0 then some (100 : ℚ) else jdiv g l))) ::
      rsiLoop closes period (period + 1) g l).length = closes.length := by
    simp only [List.length_append, List.length_cons, rsiLoop_length, hout1]
    omega
  simp [hlen]

theorem rsiTail_warmup (closes : List JsNum) (period : ℕ) (g l : JsNum)
    (hplt : period < closes.length) (j : ℕ) (hj : j < period) :
    (rsiTail closes period (List.replicate period none) g l)[j]? = some none := by
  rw [rsiTail]
  have hlen : ((List.replicate period (none : JsNum)) ++
      jsub (some 100) (jdiv (some 100) (jadd (some 1)
        (if l = some 0 then some (100 : ℚ) else jdiv g l))) ::
      rsiLoop closes period (period + 1) g l).length = closes.length := by
    simp only [List.length_append, List.length_cons, rsiLoop_length,
      List.length_replicate]
    omega
  simp only [hlen, lt_irrefl, if_false, ite_false]
  rw [List.getElem?_append_left (by simpa using hj)]
  simp [List.getElem?_replicate, hj]

theorem rsi_length (closes : List JsNum) (period : ℕ) :
    (rsi closes period).length = closes.length := by
  rw [rsi]
  by_cases h0 : closes.length = 0
  · simp [h0]
  · by_cases hle : closes.length ≤ period
    · have hmin : min period (closes.length - 1) = closes.length - 1 := by omega
      simp [h0, hle, hmin]
    · have hmin : min period (closes.length - 1) = period := by omega
      have hplt : period < closes.length := by omega
      simp only [h0, hle, hmin, if_false, ite_false]
      rw [rsiTail_length closes period _ _ _ (by simp) hplt]

theorem rsi_warmup (closes : List JsNum) (period : ℕ) (hple : period ≤ closes.length) :
    ∀ j, j < period → (rsi closes period)[j]? = some none := by
  intro j hj
  rw [rsi]
  by_cases h0 : closes.length = 0
  · omega
  · by_cases hle : closes.length ≤ period
    · have hmin : min period (closes.length - 1) = closes.length - 1 := by omega
      simp only [h0, hle, hmin, if_false, ite_false, if_true, ite_true,
        List.length_replicate]
      rw [← List.replicate_add, List.getElem?_replicate, if_pos (by omega)]
    · have hmin : min period (closes.length - 1) = period := by omega
      have hplt : period < closes.length := by omega
      simp only [h0, hle, hmin, if_false, ite_false]
      exact rsiTail_warmup closes period _ _ hplt j hj

theorem trsAux_length (candles : List MarketCandle) (i : ℕ) (prevClose : Option ℚ) :
    (trsAux candles i prevClose).length = candles.length - i := by
  induction i, prevClose using trsAux.induct candles with
  | case1 i prevClose hlt cd hi lo cl hc hl hh ih =>
    have hh2 : (candles.get ⟨i, hlt⟩).h = some hi := hh
    have hl2 : (candles.get ⟨i, hlt⟩).l = some lo := hl
    have hc2 : (candles.get ⟨i, hlt⟩).c = some cl := hc
    have ih2 : (trsAux candles (i + 1) (some cl)).length = candles.length - (i + 1) := ih
    rw [trsAux]
    simp only [hlt, dif_pos, hh2, hl2, hc2, List.length_cons, ih2]
    omega
  | case2 i prevClose hlt cd hno ih =>
    rw [trsAux]
    simp only [hlt, dif_pos]
    rcases hh : (candles.get ⟨i, hlt⟩).h with _ | hi <;>
      rcases hl : (candles.get ⟨i, hlt⟩).l with _ | lo <;>
      rcases hc : (candles.get ⟨i, hlt⟩).c with _ | cl <;>
      first
        | (cases hno _ _ _ hh hl hc)
        | (simp only [hh, hl, hc, List.length_cons, ih]; omega)
  | case3 i prevClose hlt =>
    rw [trsAux, dif_neg hlt]
    simp only [List.length_nil]
    omega

theorem atrLoop_length (trs : List JsNum) (period : ℕ) (i : ℕ) (prevAtr : Option ℚ) :
    (atrLoop trs period i prevAtr).length = trs.length - i := by
  induction i, prevAtr using atrLoop.induct trs period with
  | case1 i prev hlt hget ih =>
    rw [atrLoop]
    simp only [hlt, dif_pos, hget, List.length_cons, ih]
    omega
  | case2 i prev hlt tr hget hilt ih =>
    rw [atrLoop]
    simp only [hlt, dif_pos, hget, hilt, if_pos, if_true, List.length_cons, ih]
    omega
  | case3 prev tr window s v hlt hget hnlt ih =>
    have ih2 : (atrLoop trs period (period + 1)
        (if (List.take period (List.drop 1 trs)).length = 0 then none
         else some ((List.map (fun o => Option.getD o 0)
           (List.take period (List.drop 1 trs))).sum /
           ((List.take period (List.drop 1 trs)).length : ℚ)))).length
        = trs.length - (period + 1) := ih
    rw [atrLoop]
    simp only [hlt, dif_pos, hget, lt_irrefl, if_false, ite_false, if_pos rfl,
      ite_true, List.length_cons, ih2]
    omega
  | case4 i hlt tr hget hnl hne ih =>
    rw [atrLoop]
    simp only [hlt, dif_pos, hget, hnl, hne, if_neg, if_false, ite_false,
      List.length_cons, ih]
    omega
  | case5 i hlt tr hget hnl hne pa na ih =>
    have ih2 : (atrLoop trs period (i + 1)
        (some ((pa * ((period : ℚ) - 1) + tr) / (period : ℚ)))).length
        = trs.length - (i + 1) := ih
    rw [atrLoop]
    simp only [hlt, dif_pos, hget, hnl, hne, if_neg, if_false, ite_false,
      List.length_cons, ih2]
    omega
  | case6 i prev hlt =>
    rw [atrLoop, dif_neg hlt]
    simp only [List.length_nil]
    omega

theorem atrLoop_warmup (trs : List JsNum) (period : ℕ) (i : ℕ) (prevAtr : Option ℚ) :
    ∀ j, j < trs.length - i → i + j < period →
      (atrLoop trs period i prevAtr)[j]? = some none := by
  induction i, prevAtr using atrLoop.induct trs period with
  | case1 i prev hlt hget ih =>
    intro j hj hp
    rw [atrLoop]
    simp only [hlt, dif_pos, hget]
    cases j with
    | zero => simp
    | succ j => simpa using ih j (by omega) (by omega)
  | case2 i prev hlt tr hget hilt ih =>
    intro j hj hp
    rw [atrLoop]
    simp only [hlt, dif_pos, hget, hilt, if_pos, if_true]
    cases j with
    | zero => simp
    | succ j => simpa using ih j (by omega) (by omega)
  | case3 prev tr window s v hlt hget hnlt ih =>
    intro j hj hp
    omega
  | case4 i hlt tr hget hnl hne ih =>
    intro j hj hp
    omega
  | case5 i hlt tr hget hnl hne pa na ih =>
    intro j hj hp
    omega
  | case6 i prev hlt =>
    intro j hj hp
    omega

theorem atr_length (candles : List MarketCandle) (period : ℕ) :
    (atr candles period).length = candles.length := by
  rw [atr, atrLoop_length, trsAux_length]
  omega

theorem atr_warmup (candles : List MarketCandle) (period : ℕ) :
    ∀ j, j < candles.length → j < period → (atr candles period)[j]? = some none := by
  intro j hj hp
  rw [atr]
  exact atrLoop_warmup _ period 0 none j
    (by rw [trsAux_length]; omega) (by omega)

theorem ediv2_bounds (lo hi : ℤ) (h : lo ≤ hi) :
    lo ≤ (lo + hi).ediv 2 ∧ (lo + hi).ediv 2 ≤ hi := by
  constructor
  · have h1 : 2 * lo ≤ lo + hi := by omega
    have h2 := Int.ediv_le_ediv (by norm_num : (0 : ℤ) < 2) h1
    rwa [Int.mul_ediv_cancel_left lo (by norm_num)] at h2
  · have h1 : lo + hi ≤ 2 * hi := by omega
    have h2 := Int.ediv_le_ediv (by norm_num : (0 : ℤ) < 2) h1
    rwa [Int.mul_ediv_cancel_left hi (by norm_num)] at h2

theorem sorted_getD_lt (ts : List ℚ) (hsort : ts.Pairwise (· < ·))
    (a b : ℕ) (hab : a < b) (hb : b < ts.length) :
    ts.getD a 0 < ts.getD b 0 := by
  have ha : a < ts.length := by omega
  rw [List.getD_eq_getElem ts 0 ha, List.getD_eq_getElem ts 0 hb]
  exact List.pairwise_iff_getElem.mp hsort a b ha hb hab

theorem fcLoop_spec (ts : List ℚ) (tsq : ℚ) (hsort : ts.Pairwise (· < ·))
    (hlen : 0 < ts.length) (h0 : ts.getD 0 0 < tsq) :
    ∀ lo hi : ℤ, 0 ≤ lo → hi < (ts.length : ℤ) → lo ≤ hi + 1 →
    (lo = 0 ∨ ts.getD (lo - 1).toNat 0 < tsq) →
    (hi = (ts.length : ℤ) - 1 ∨ tsq < ts.getD (hi + 1).toNat 0) →
    0 ≤ fcLoop ts tsq lo hi ∧ fcLoop ts tsq lo hi < (ts.length : ℤ) ∧
      ts.getD (fcLoop ts tsq lo hi).toNat 0 ≤ tsq ∧
      (fcLoop ts tsq lo hi + 1 < (ts.length : ℤ) →
        tsq < ts.getD (fcLoop ts tsq lo hi + 1).toNat 0) := by
  intro lo hi
  induction lo, hi using fcLoop.induct ts tsq with
  | case1 lo hi hle mid t heq =>
    intro hlo hhi hlohi hinvlo hinvhi
    obtain ⟨hmid1, hmid2⟩ := ediv2_bounds lo hi hle
    have heq2 : ts.getD ((lo + hi).ediv 2).toNat 0 = tsq := heq
    rw [fcLoop, dif_pos hle]
    simp only [heq2, eq_self_iff_true, ite_true, if_pos]
    refine ⟨by omega, by omega, le_rfl, ?_⟩
    intro hlt
    rw [show ((lo + hi).ediv 2 + 1).toNat = ((lo + hi).ediv 2).toNat + 1 by omega]
    calc tsq = ts.getD ((lo + hi).ediv 2).toNat 0 := heq2.symm
      _ < ts.getD (((lo + hi).ediv 2).toNat + 1) 0 :=
          sorted_getD_lt ts hsort _ _ (by omega) (by omega)
  | case2 lo hi hle mid t hne hlt2 ih =>
    intro hlo hhi hlohi hinvlo hinvhi
    obtain ⟨hmid1, hmid2⟩ := ediv2_bounds lo hi hle
    have hlt3 : ts.getD ((lo + hi).ediv 2).toNat 0 < tsq := hlt2
    have hne3 : ¬ ts.getD ((lo + hi).ediv 2).toNat 0 = tsq := hne
    rw [fcLoop, dif_pos hle]
    simp only [hne3, hlt3, if_neg, if_pos, ite_true, ite_false, if_false]
    refine ih (by omega) hhi (by omega) ?_ hinvhi
    right
    rw [show ((lo + hi).ediv 2 + 1 - 1).toNat = ((lo + hi).ediv 2).toNat by omega]
    exact hlt3
  | case3 lo hi hle mid t hne hnlt ih =>
    intro hlo hhi hlohi hinvlo hinvhi
    obtain ⟨hmid1, hmid2⟩ := ediv2_bounds lo hi hle
    have hne3 : ¬ ts.getD ((lo + hi).ediv 2).toNat 0 = tsq := hne
    have hnlt3 : ¬ ts.getD ((lo + hi).ediv 2).toNat 0 < tsq := hnlt
    have hgt : tsq < ts.getD ((lo + hi).ediv 2).toNat 0 := by
      rcases lt_trichotomy (ts.getD ((lo + hi).ediv 2).toNat 0) tsq with h | h | h
      · exact absurd h hnlt3
      · exact absurd h hne3
      · exact h
    rw [fcLoop, dif_pos hle]
    simp only [hne3, hnlt3, if_neg, ite_false, if_false]
    refine ih hlo (by omega) (by omega) hinvlo ?_
    right
    rw [show ((lo + hi).ediv 2 - 1 + 1).toNat = ((lo + hi).ediv 2).toNat by omega]
    exact hgt
  | case4 lo hi hnle =>
    intro hlo hhi hlohi hinvlo hinvhi
    rw [fcLoop, dif_neg hnle]
    have hlo1 : 1 ≤ lo := by
      by_contra hc
      have hl0 : lo = 0 := by omega
      have hhi0 : hi = -1 := by omega
      rcases hinvhi with hh | hh
      · omega
      · have h1 : (hi + 1).toNat = 0 := by omega
        rw [h1] at hh
        exact absurd (hh.trans h0) (lt_irrefl _)
    have hmax : max 0 (lo - 1) = lo - 1 := by omega
    refine ⟨by omega, by omega, ?_, ?_⟩
    · rcases hinvlo with hl0 | hlval
      · omega
      · rw [hmax]
        exact le_of_lt hlval
    · intro hlt
      rw [hmax] at hlt ⊢
      rcases hinvhi with hh | hh
      · omega
      · rw [show (lo - 1 + 1).toNat = (hi + 1).toNat by omega]
        exact hh

theorem sorted_getD_le (ts : List ℚ) (hsort : ts.Pairwise (· < ·))
    (a b : ℕ) (hab : a ≤ b) (hb : b < ts.length) :
    ts.getD a 0 ≤ ts.getD b 0 := by
  rcases Nat.lt_or_ge a b with h | h
  · exact le_of_lt (sorted_getD_lt ts hsort a b h hb)
  · have : a = b := by omega
    rw [this]

theorem findCandle_master (candles : List MarketCandle) (tsq : ℚ)
    (hsort : candles.Pairwise (fun a b => a.t < b.t))
    (hlen : 0 < candles.length)
    (hgt : timeAt candles 0 < tsq) :
    0 ≤ findCandleIndexAtOrBefore candles tsq ∧
    findCandleIndexAtOrBefore candles tsq < (candles.length : ℤ) ∧
    timeAt candles (findCandleIndexAtOrBefore candles tsq).toNat ≤ tsq ∧
    (∀ k, k < candles.length → timeAt candles k ≤ tsq →
      (k : ℤ) ≤ findCandleIndexAtOrBefore candles tsq) := by
  have hsort2 : (candles.map MarketCandle.t).Pairwise (· < ·) :=
    List.pairwise_map.mpr hsort
  have hlen2 : (candles.map MarketCandle.t).length = candles.length :=
    List.length_map _ _
  have hmain : 0 ≤ findCandleIndexAtOrBefore candles tsq ∧
      findCandleIndexAtOrBefore candles tsq < (candles.length : ℤ) ∧
      timeAt candles (findCandleIndexAtOrBefore candles tsq).toNat ≤ tsq ∧
      (findCandleIndexAtOrBefore candles tsq + 1 < (candles.length : ℤ) →
        tsq < timeAt candles (findCandleIndexAtOrBefore candles tsq).toNat.succ) := by
    rw [findCandleIndexAtOrBefore]
    rw [if_neg (by omega)]
    simp only
    by_cases hc1 : tsq ≤ (candles.map MarketCandle.t).getD 0 0
    · exact absurd hgt (not_lt.mpr hc1)
    · rw [if_neg hc1]
      by_cases hc2 :
          (candles.map MarketCandle.t).getD ((candles.length : ℤ) - 1).toNat 0 ≤ tsq
      · rw [if_pos hc2]
        refine ⟨by omega, by omega, ?_, ?_⟩
        · unfold timeAt
          convert hc2 using 3
        · intro hcon
          omega
      · rw [if_neg hc2]
        have hspec := fcLoop_spec (candles.map MarketCandle.t) tsq hsort2
          (by omega) (by push_neg at hc1; exact hc1)
          0 ((candles.length : ℤ) - 1) le_rfl (by omega) (by omega)
          (Or.inl rfl) (Or.inl (by omega))
        obtain ⟨hs1, hs2, hs3, hs4⟩ := hspec
        refine ⟨hs1, by omega, hs3, ?_⟩
        intro hlt
        have := hs4 (by omega)
        unfold timeAt
        rw [show (fcLoop (candles.map MarketCandle.t) tsq 0
          ((candles.length : ℤ) - 1)).toNat.succ
          = (fcLoop (candles.map MarketCandle.t) tsq 0
            ((candles.length : ℤ) - 1) + 1).toNat by omega]
        exact this
  obtain ⟨h1, h2, h3, h4⟩ := hmain
  refine ⟨h1, h2, h3, ?_⟩
  intro k hk hkle
  by_contra hcon
  push_neg at hcon
  have hk1 : findCandleIndexAtOrBefore candles tsq + 1 ≤ (k : ℤ) := by omega
  have hk2 : findCandleIndexAtOrBefore candles tsq + 1 < (candles.length : ℤ) := by omega
  have h5 := h4 hk2
  have hmono : timeAt candles (findCandleIndexAtOrBefore candles tsq).toNat.succ ≤
      timeAt candles k := by
    unfold timeAt
    exact sorted_getD_le _ hsort2 _ _ (by omega) (by omega)
  have : tsq < timeAt candles k := lt_of_lt_of_le h5 hmono
  exact absurd hkle (not_le.mpr this)

theorem findCandle_empty (tsq : ℚ) : findCandleIndexAtOrBefore [] tsq = -1 := rfl

theorem findCandle_before_first (candles : List MarketCandle) (tsq : ℚ)
    (hlen : 0 < candles.length) (hle : tsq ≤ timeAt candles 0) :
    findCandleIndexAtOrBefore candles tsq = 0 := by
  unfold timeAt at hle
  rw [findCandleIndexAtOrBefore, if_neg (by omega)]
  simp only
  rw [if_pos hle]

theorem findCandle_after_last (candles : List MarketCandle) (tsq : ℚ)
    (hsort : candles.Pairwise (fun a b => a.t < b.t))
    (hlen : 0 < candles.length)
    (hge : timeAt candles (candles.length - 1) ≤ tsq) :
    findCandleIndexAtOrBefore candles tsq = (candles.length : ℤ) - 1 := by
  have hsort2 : (candles.map MarketCandle.t).Pairwise (· < ·) :=
    List.pairwise_map.mpr hsort
  by_cases hc1 : tsq ≤ timeAt candles 0
  · have hone : candles.length = 1 := by
      by_contra hc
      have h2 : 2 ≤ candles.length := by omega
      have := sorted_getD_lt (candles.map MarketCandle.t) hsort2 0
        (candles.length - 1) (by omega) (by rw [List.length_map]; omega)
      unfold timeAt at hge hc1
      have : tsq < tsq := lt_of_le_of_lt hc1 (lt_of_lt_of_le this hge)
      exact absurd this (lt_irrefl _)
    rw [findCandle_before_first candles tsq hlen hc1, hone]
    norm_num
  · unfold timeAt at hc1
    rw [findCandleIndexAtOrBefore, if_neg (by omega)]
    simp only
    rw [if_neg hc1]
    rw [if_pos]
    unfold timeAt at hge
    rw [show ((candles.length : ℤ) - 1).toNat = candles.length - 1 by omega]
    exact hge

theorem findCandle_exact (candles : List MarketCandle) (tsq : ℚ)
    (hsort : candles.Pairwise (fun a b => a.t < b.t))
    (k : ℕ) (hk : k < candles.length) (heq : timeAt candles k = tsq) :
    findCandleIndexAtOrBefore candles tsq = (k : ℤ) := by
  have hsort2 : (candles.map MarketCandle.t).Pairwise (· < ·) :=
    List.pairwise_map.mpr hsort
  by_cases hc1 : tsq ≤ timeAt candles 0
  · have hk0 : k = 0 := by
      by_contra hc
      have := sorted_getD_lt (candles.map MarketCandle.t) hsort2 0 k
        (by omega) (by rw [List.length_map]; omega)
      unfold timeAt at heq hc1
      rw [heq] at this
      have : tsq < tsq := lt_of_le_of_lt hc1 this
      exact absurd this (lt_irrefl _)
    rw [findCandle_before_first candles tsq (by omega) hc1, hk0]
    norm_num
  · push_neg at hc1
    obtain ⟨h1, h2, h3, h4⟩ := findCandle_master candles tsq hsort (by omega) hc1
    have hkler : (k : ℤ) ≤ findCandleIndexAtOrBefore candles tsq :=
      h4 k hk (le_of_eq heq)
    have hrlek : findCandleIndexAtOrBefore candles tsq ≤ (k : ℤ) := by
      by_contra hc
      push_neg at hc
      have := sorted_getD_lt (candles.map MarketCandle.t) hsort2 k
        (findCandleIndexAtOrBefore candles tsq).toNat (by omega)
        (by rw [List.length_map]; omega)
      unfold timeAt at heq h3
      rw [heq] at this
      have : tsq < tsq := lt_of_lt_of_le this h3
      exact absurd this (lt_irrefl _)
    omega

theorem mem_dropWhile_of_not (p : Char → Bool) (l : List Char) (a : Char)
    (ha : a ∈ l) (hna : p a = false) : a ∈ l.dropWhile p := by
  induction l with
  | nil => cases ha
  | cons x xs ih =>
    by_cases hx : p x
    · rw [List.dropWhile_cons_of_pos hx]
      rcases List.mem_cons.mp ha with h | h
      · subst h; rw [hx] at hna; cases hna
      · exact ih h
    · rw [List.dropWhile_cons_of_neg hx]
      exact ha

theorem mem_jsTrim (s : List Char) (a : Char) (ha : a ∈ s)
    (hna : a.isWhitespace = false) : a ∈ jsTrim s := by
  unfold jsTrim
  rw [List.mem_reverse]
  apply mem_dropWhile_of_not _ _ _ _ hna
  rw [List.mem_reverse]
  exact mem_dropWhile_of_not _ _ _ ha hna

theorem mem_normalizeJournalSymbol_colon (s : List Char) (ha : ':' ∈ s) :
    ':' ∈ normalizeJournalSymbol s := by
  unfold normalizeJournalSymbol
  have hne : ¬ s = [] := by
    intro h; subst h; cases ha
  rw [if_neg hne]
  have h1 : ':' ∈ jsTrim s := mem_jsTrim s ':' ha (by decide)
  have h2 : ':' ∈ jsToUpper (jsTrim s) := by
    unfold jsToUpper
    exact List.mem_map.mpr ⟨':', h1, by decide⟩
  by_cases hl : (jsToUpper (jsTrim s)).getLast? = some '+'
  · rw [if_pos hl]
    have hune : jsToUpper (jsTrim s) ≠ [] := by
      intro h; rw [h] at h2; cases h2
    have hdec := List.dropLast_append_getLast hune
    rw [← hdec] at h2
    rcases List.mem_append.mp h2 with h | h
    · exact h
    · exfalso
      have hlast : (jsToUpper (jsTrim s)).getLast hune = '+' :=
        (List.getLast_eq_iff_getLast?_eq_some hune).mpr hl
      rw [hlast] at h
      simp at h
  · rw [if_neg hl]
    exact h2

theorem mapToPolygonForexTicker_colon (s : List Char) (P : List Char)
    (ha : ':' ∈ s) :
    mapToPolygonForexTicker s P = normalizeJournalSymbol s := by
  unfold mapToPolygonForexTicker
  rw [if_pos (mem_normalizeJournalSymbol_colon s ha)]

theorem isTickerChar_toNat (c : Char) (h : isTickerChar c = true) :
    (65 ≤ c.toNat ∧ c.toNat ≤ 90) ∨ (48 ≤ c.toNat ∧ c.toNat ≤ 57) := by
  simp only [isTickerChar, Bool.or_eq_true, Bool.and_eq_true, decide_eq_true_eq] at h
  rcases h with ⟨h1, h2⟩ | ⟨h1, h2⟩
  · left
    rw [Char.le_def, UInt32.le_def, BitVec.le_def] at h1 h2
    exact ⟨h1, h2⟩
  · right
    rw [Char.le_def, UInt32.le_def, BitVec.le_def] at h1 h2
    exact ⟨h1, h2⟩

theorem toUpper_eq_self_of_toNat (c : Char) (h : ¬(97 ≤ c.toNat ∧ c.toNat ≤ 122)) :
    c.toUpper = c := by
  unfold Char.toUpper
  simp [h]

theorem char_ne_of_toNat (c d : Char) (h : c.toNat ≠ d.toNat) : c ≠ d :=
  fun he => h (he ▸ rfl)

theorem isWhitespace_eq_false_of (c : Char) (h32 : c.toNat ≠ 32) (h9 : c.toNat ≠ 9)
    (h13 : c.toNat ≠ 13) (h10 : c.toNat ≠ 10) : c.isWhitespace = false := by
  unfold Char.isWhitespace
  simp only [Bool.or_eq_false_iff, decide_eq_false_iff_not]
  exact ⟨⟨⟨char_ne_of_toNat c ' ' h32, char_ne_of_toNat c '\t' h9⟩,
    char_ne_of_toNat c '\r' h13⟩, char_ne_of_toNat c '\n' h10⟩

theorem tickerChar_props (c : Char) (h : isTickerChar c = true) :
    Char.toUpper c = c ∧ c.isWhitespace = false ∧ c ≠ '+' := by
  have hb := isTickerChar_toNat c h
  refine ⟨toUpper_eq_self_of_toNat c (by omega),
    isWhitespace_eq_false_of c (by omega) (by omega) (by omega) (by omega),
    char_ne_of_toNat c '+' (by
      have h43 : ('+').toNat = 43 := rfl
      omega)⟩

theorem dropWhile_eq_self_of_all (p : Char → Bool) (l : List Char)
    (h : ∀ c ∈ l, p c = false) : l.dropWhile p = l := by
  cases l with
  | nil => rfl
  | cons x xs =>
    rw [List.dropWhile_cons_of_neg]
    rw [h x (List.mem_cons_self x xs)]
    exact Bool.false_ne_true

theorem jsTrim_eq_self (l : List Char) (h : ∀ c ∈ l, c.isWhitespace = false) :
    jsTrim l = l := by
  unfold jsTrim
  rw [dropWhile_eq_self_of_all _ _ h]
  rw [dropWhile_eq_self_of_all _ _ (fun c hc => h c (List.mem_reverse.mp hc))]
  exact List.reverse_reverse l

theorem jsToUpper_eq_self (l : List Char) (h : ∀ c ∈ l, Char.toUpper c = c) :
    jsToUpper l = l := by
  unfold jsToUpper
  induction l with
  | nil => rfl
  | cons x xs ih =>
    simp only [List.map_cons, List.cons.injEq]
    exact ⟨h x (List.mem_cons_self x xs), ih (fun c hc => h c (List.mem_cons_of_mem x hc))⟩

theorem normalizeJournalSymbol_stable (u : List Char)
    (hchars : ∀ c ∈ u, Char.toUpper c = c ∧ c.isWhitespace = false)
    (hlast : u.getLast? ≠ some '+') :
    normalizeJournalSymbol u = u := by
  unfold normalizeJournalSymbol
  by_cases h0 : u = []
  · rw [if_pos h0]
  · rw [if_neg h0]
    have ht : jsTrim u = u := jsTrim_eq_self u (fun c hc => (hchars c hc).2)
    have hu : jsToUpper (jsTrim u) = u := by
      rw [ht]
      exact jsToUpper_eq_self u (fun c hc => (hchars c hc).1)
    simp only [hu]
    rw [if_neg hlast]

theorem mapToPolygon_noColon_idempotent (s : List Char)
    (hnc : ':' ∉ normalizeJournalSymbol s) :
    mapToPolygonForexTicker (mapToPolygonForexTicker s defaultForexPrefix)
      defaultForexPrefix = mapToPolygonForexTicker s defaultForexPrefix := by
  have hout : mapToPolygonForexTicker s defaultForexPrefix
      = defaultForexPrefix ++ (customMapLookup (normalizeJournalSymbol s)).filter
        isTickerChar := by
    unfold mapToPolygonForexTicker
    rw [if_neg hnc]
  set f := (customMapLookup (normalizeJournalSymbol s)).filter isTickerChar with hf
  have hmemf : ∀ c ∈ f, isTickerChar c = true := fun c hc => (List.mem_filter.mp hc).2
  have hchars : ∀ c ∈ defaultForexPrefix ++ f,
      Char.toUpper c = c ∧ c.isWhitespace = false := by
    intro c hc
    rcases List.mem_append.mp hc with h | h
    · rcases List.mem_cons.mp h with h1 | h1
      · subst h1; exact ⟨by decide, by decide⟩
      · rcases List.mem_cons.mp h1 with h2 | h2
        · subst h2; exact ⟨by decide, by decide⟩
        · cases h2
    · obtain ⟨p1, p2, _⟩ := tickerChar_props c (hmemf c h)
      exact ⟨p1, p2⟩
  have hlast : (defaultForexPrefix ++ f).getLast? ≠ some '+' := by
    by_cases hfe : f = []
    · rw [hfe]
      decide
    · rw [List.getLast?_append_of_ne_nil _ hfe]
      rw [List.getLast?_eq_getLast f hfe]
      intro hcon
      have hmem := List.getLast_mem hfe
      obtain ⟨_, _, hne⟩ := tickerChar_props _ (hmemf _ hmem)
      exact hne (Option.some.injEq _ _ ▸ hcon)
  have hstable : normalizeJournalSymbol (defaultForexPrefix ++ f)
      = defaultForexPrefix ++ f := normalizeJournalSymbol_stable _ hchars hlast
  rw [hout]
  unfold mapToPolygonForexTicker
  simp only [hstable]
  rw [if_pos (by exact List.mem_append.mpr (Or.inl (by decide)))]

theorem mapToPolygon_idempotent_main (s : List Char)
    (h : ':' ∈ normalizeJournalSymbol s →
      normalizeJournalSymbol (normalizeJournalSymbol s) = normalizeJournalSymbol s) :
    mapToPolygonForexTicker (mapToPolygonForexTicker s defaultForexPrefix)
      defaultForexPrefix = mapToPolygonForexTicker s defaultForexPrefix := by
  by_cases hc : ':' ∈ normalizeJournalSymbol s
  · have h1 : mapToPolygonForexTicker s defaultForexPrefix
        = normalizeJournalSymbol s := by
      unfold mapToPolygonForexTicker
      rw [if_pos hc]
    rw [h1]
    unfold mapToPolygonForexTicker
    simp only [h hc]
    rw [if_pos hc]
  · exact mapToPolygon_noColon_idempotent s hc

theorem foldl_add_eq_sum (l : List ℚ) : ∀ a : ℚ, l.foldl (· + ·) a = a + l.sum := by
  induction l with
  | nil => intro a; simp
  | cons x xs ih =>
    intro a
    simp only [List.foldl_cons, List.sum_cons, ih (a + x)]
    ring

theorem metricsOf_closed_form (trades : List Trade) :
    metricsOf trades =
      ⟨trades.length,
        (trades.filter (fun t => decide (0 < tradeProfit t))).length,
        if trades.length = 0 then 0
          else (((trades.filter (fun t => decide (0 < tradeProfit t))).length : ℚ) /
            (trades.length : ℚ)),
        (trades.map tradeProfit).sum,
        if trades.length = 0 then 0
          else (trades.map tradeProfit).sum / (trades.length : ℚ)⟩ := by
  unfold metricsOf
  have hlen : (trades.map tradeProfit).length = trades.length := List.length_map _ _
  have hsum : (trades.map tradeProfit).foldl (· + ·) 0 = (trades.map tradeProfit).sum := by
    rw [foldl_add_eq_sum]
    ring
  have hfil : (trades.map tradeProfit).filter (fun p => decide (0 < p))
      = (trades.filter (fun t => decide (0 < tradeProfit t))).map tradeProfit := by
    rw [List.filter_map]
    rfl
  simp only [hlen, hsum, hfil, List.length_map]

theorem backoffDelays_succ (b n s : ℕ) :
    backoffDelays b (n + 1) s = b * 2 ^ s :: backoffDelays b n (s + 1) := by
  unfold backoffDelays
  rw [List.range_succ_eq_map]
  simp only [List.map_cons, List.map_map, Nat.add_zero]
  congr 1
  apply List.map_congr_left
  intro i _
  simp only [Function.comp_apply]
  congr 1
  congr 1
  omega

theorem fetchWithRetryGo_all_retryable (mr b : ℕ) (pre : List RetryErr)
    (hall : ∀ f ∈ pre, isRetryable f = true) :
    ∀ attempt rest, attempt + pre.length ≤ mr →
    fetchWithRetryGo mr b attempt (pre ++ rest) =
      match fetchWithRetryGo mr b (attempt + pre.length) rest with
      | .success ds => .success (backoffDelays b pre.length attempt ++ ds)
      | .thrown c ds => .thrown c (backoffDelays b pre.length attempt ++ ds) := by
  induction pre with
  | nil =>
    intro attempt rest _
    simp only [List.nil_append, List.length_nil, Nat.add_zero]
    cases fetchWithRetryGo mr b attempt rest <;>
      simp [backoffDelays]
  | cons e pre ih =>
    intro attempt rest h
    simp only [List.length_cons] at h
    have he : isRetryable e = true := hall e (List.mem_cons_self e pre)
    have hrest : ∀ f ∈ pre, isRetryable f = true :=
      fun f hf => hall f (List.mem_cons_of_mem e hf)
    rw [List.cons_append]
    show fetchWithRetryGo mr b attempt (e :: (pre ++ rest)) = _
    rw [fetchWithRetryGo]
    simp only [he, if_neg, Bool.true_eq_false, not_false_eq_true, if_false, ite_false]
    rw [if_neg (by omega)]
    rw [ih hrest (attempt + 1) rest (by omega)]
    simp only [List.length_cons]
    rw [backoffDelays_succ]
    rw [show attempt + (pre.length + 1) = attempt + 1 + pre.length from by omega]
    cases fetchWithRetryGo mr b (attempt + 1 + pre.length) rest <;> simp

theorem fetchWithRetry_success (mr b : ℕ) (pre : List RetryErr)
    (hall : ∀ f ∈ pre, isRetryable f = true) (hlen : pre.length ≤ mr) :
    fetchWithRetry mr b pre = .success (backoffDelays b pre.length 0) := by
  unfold fetchWithRetry
  have := fetchWithRetryGo_all_retryable mr b pre hall 0 [] (by omega)
  rw [List.append_nil] at this
  rw [this]
  simp [fetchWithRetryGo]

theorem fetchWithRetry_nonretryable (mr b : ℕ) (pre : List RetryErr)
    (hall : ∀ f ∈ pre, isRetryable f = true) (hlen : pre.length ≤ mr)
    (e : RetryErr) (he : isRetryable e = false) (rest : List RetryErr) :
    fetchWithRetry mr b (pre ++ e :: rest)
      = .thrown (e.status.getD 502) (backoffDelays b pre.length 0) := by
  unfold fetchWithRetry
  rw [fetchWithRetryGo_all_retryable mr b pre hall 0 (e :: rest) (by omega)]
  rw [fetchWithRetryGo]
  simp only [he, ite_true, if_pos]
  simp

theorem fetchWithRetry_exhausted (mr b : ℕ) (pre : List RetryErr)
    (hall : ∀ f ∈ pre, isRetryable f = true) (hlen : pre.length = mr)
    (e : RetryErr) (he : isRetryable e = true) (rest : List RetryErr) :
    fetchWithRetry mr b (pre ++ e :: rest)
      = .thrown (if e.timeout then 504 else e.status.getD 502)
          (backoffDelays b pre.length 0) := by
  unfold fetchWithRetry
  rw [fetchWithRetryGo_all_retryable mr b pre hall 0 (e :: rest) (by omega)]
  rw [fetchWithRetryGo]
  simp only [he, Bool.true_eq_false, if_neg, not_false_eq_true, ite_false, if_false]
  rw [if_pos (by omega)]
  simp

theorem keywordHitsGo_le_five (text : List Char) :
    ∀ kws h, h ≤ 4 → keywordHitsGo text kws h ≤ 5 := by
  intro kws
  induction kws with
  | nil => intro h hh; unfold keywordHitsGo; omega
  | cons kw rest ih =>
    intro h hh
    rw [keywordHitsGo]
    by_cases hm : kw ≠ [] ∧ includesStr text kw = true
    · rw [if_pos hm]
      by_cases h5 : 5 ≤ h + 1
      · rw [if_pos h5]; omega
      · rw [if_neg h5]; exact ih (h + 1) (by omega)
    · rw [if_neg hm]; exact ih h hh

theorem keywordHitsGo_le_succ_of_ge (text : List Char) :
    ∀ kws h, 4 ≤ h → keywordHitsGo text kws h ≤ h + 1 := by
  intro kws
  induction kws with
  | nil => intro h _; unfold keywordHitsGo; omega
  | cons kw rest ih =>
    intro h hh
    rw [keywordHitsGo]
    by_cases hm : kw ≠ [] ∧ includesStr text kw = true
    · rw [if_pos hm, if_pos (by omega)]
    · rw [if_neg hm]; exact ih h hh

theorem keywordHitsGo_ge_start (text : List Char) :
    ∀ kws h, h ≤ keywordHitsGo text kws h := by
  intro kws
  induction kws with
  | nil => intro h; unfold keywordHitsGo; omega
  | cons kw rest ih =>
    intro h
    rw [keywordHitsGo]
    by_cases hm : kw ≠ [] ∧ includesStr text kw = true
    · rw [if_pos hm]
      by_cases h5 : 5 ≤ h + 1
      · rw [if_pos h5]; omega
      · rw [if_neg h5]
        have := ih (h + 1)
        omega
    · rw [if_neg hm]; exact ih h

theorem keywordHitsGo_mono_start (text : List Char) :
    ∀ kws h h', h ≤ h' → keywordHitsGo text kws h ≤ keywordHitsGo text kws h' := by
  intro kws
  induction kws with
  | nil => intro h h' hh; unfold keywordHitsGo; omega
  | cons kw rest ih =>
    intro h h' hh
    rw [keywordHitsGo, keywordHitsGo]
    by_cases hm : kw ≠ [] ∧ includesStr text kw = true
    · rw [if_pos hm, if_pos hm]
      by_cases h5 : 5 ≤ h + 1
      · rw [if_pos h5, if_pos (by omega)]
        omega
      · rw [if_neg h5]
        by_cases h5' : 5 ≤ h' + 1
        · rw [if_pos h5']
          have := keywordHitsGo_le_five text rest (h + 1) (by omega)
          omega
        · rw [if_neg h5']
          exact ih (h + 1) (h' + 1) (by omega)
    · rw [if_neg hm, if_neg hm]
      exact ih h h' hh

theorem keywordHitsGo_infix_mono (t1 t2 : List Char) (hsub : t1 <:+: t2) :
    ∀ kws h, keywordHitsGo t1 kws h ≤ keywordHitsGo t2 kws h := by
  intro kws
  induction kws with
  | nil => intro h; unfold keywordHitsGo; omega
  | cons kw rest ih =>
    intro h
    rw [keywordHitsGo, keywordHitsGo]
    by_cases hm1 : kw ≠ [] ∧ includesStr t1 kw = true
    · have hm2 : kw ≠ [] ∧ includesStr t2 kw = true := by
        refine ⟨hm1.1, ?_⟩
        have h1 : kw <:+: t1 := of_decide_eq_true hm1.2
        exact decide_eq_true_eq.mpr (h1.trans hsub)
      rw [if_pos hm1, if_pos hm2]
      by_cases h5 : 5 ≤ h + 1
      · rw [if_pos h5, if_pos h5]
      · rw [if_neg h5, if_neg h5]
        exact ih (h + 1)
    · rw [if_neg hm1]
      by_cases hm2 : kw ≠ [] ∧ includesStr t2 kw = true
      · rw [if_pos hm2]
        by_cases h5 : 5 ≤ h + 1
        · rw [if_pos h5]
          have := keywordHitsGo_le_succ_of_ge t1 rest h (by omega)
          omega
        · rw [if_neg h5]
          exact le_trans (ih h) (keywordHitsGo_mono_start t2 rest h (h + 1) (by omega))
      · rw [if_neg hm2]
        exact ih h

theorem keywordHitsGo_closed (text : List Char) :
    ∀ kws h, h ≤ 4 → keywordHitsGo text kws h
      = min 5 (h + (kws.filter (fun kw =>
          decide (kw ≠ []) && includesStr text kw)).length) := by
  intro kws
  induction kws with
  | nil => intro h hh; unfold keywordHitsGo; simp; omega
  | cons kw rest ih =>
    intro h hh
    rw [keywordHitsGo]
    by_cases hm : kw ≠ [] ∧ includesStr text kw = true
    · have hfil : (List.filter (fun kw => decide (kw ≠ []) && includesStr text kw)
          (kw :: rest)).length
          = (List.filter (fun kw => decide (kw ≠ []) && includesStr text kw)
            rest).length + 1 := by
        rw [List.filter_cons_of_pos]
        · simp
        · simp only [Bool.and_eq_true, decide_eq_true_eq]
          exact ⟨hm.1, hm.2⟩
      rw [if_pos hm, hfil]
      by_cases h5 : 5 ≤ h + 1
      · rw [if_pos h5]
        omega
      · rw [if_neg h5, ih (h + 1) (by omega)]
        omega
    · have hfil : (List.filter (fun kw => decide (kw ≠ []) && includesStr text kw)
          (kw :: rest)).length
          = (List.filter (fun kw => decide (kw ≠ []) && includesStr text kw)
            rest).length := by
        rw [List.filter_cons_of_neg]
        simp only [Bool.and_eq_true, decide_eq_true_eq]
        exact hm
      rw [if_neg hm, hfil, ih h hh]

theorem scoreArticle_strict (symLower : List Char) (kwLower : List (List Char))
    (fromMs spanMs nowMs : ℚ) (a b : RawArticle)
    (htime : a.publishedAt = b.publishedAt)
    (hsub : articleText b <:+: articleText a)
    (hm : includesStr (articleText a) symLower = true)
    (hnm : includesStr (articleText b) symLower = false) :
    scoreArticle symLower kwLower fromMs spanMs nowMs b
      < scoreArticle symLower kwLower fromMs spanMs nowMs a := by
  unfold scoreArticle
  simp only [hm, hnm, if_true, ite_true, Bool.false_eq_true, if_false, ite_false]
  have hhits : keywordHitsGo (articleText b) kwLower 0
      ≤ keywordHitsGo (articleText a) kwLower 0 :=
    keywordHitsGo_infix_mono (articleText b) (articleText a) hsub kwLower 0
  have hcast : ((keywordHitsGo (articleText b) kwLower 0 : ℕ) : ℚ)
      ≤ ((keywordHitsGo (articleText a) kwLower 0 : ℕ) : ℚ) := by
    exact_mod_cast hhits
  rw [htime]
  have h3 : (0 : ℚ) < 3 := by norm_num
  linarith

/-! ## Claim theorems -/

/-- Claim C1 (code bug evidence): after the call sequence
`upsertObservation(1, date 0, value 1, rev 0)` then
`upsertObservation(1, date 0, value 2, rev 1)` the store keeps TWO rows for
`(seriesId 1, date 0)` both marked latest — the code never clears the
previous latest flag, contradicting its own comment and the spec invariant;
and after upserting date 1 then the older date 0 for series 1, MacroLatest
points at the older date 0 although an observation at date 1 exists. -/
theorem C1_upsertObservation_latest_bug :
    ((upsertObservation 1 0 2 1 (upsertObservation 1 0 1 0 macroEmpty)).observations.filter
      (fun o => decide (o.seriesId = 1) && decide (o.date = 0) && o.isLatest)).length = 2
    ∧ (upsertObservation 1 0 5 0 (upsertObservation 1 1 7 0 macroEmpty)).latest
        = [⟨1, 0, 5, 0⟩]
    ∧ (⟨1, 1, 7, 0, true⟩ : MacroObservation)
        ∈ (upsertObservation 1 0 5 0 (upsertObservation 1 1 7 0 macroEmpty)).observations := by
  refine ⟨by decide, by decide, by decide⟩

/-- Claim C2: `structuredInsights.metrics` is computed directly from the
input trades (count, wins = profits > 0, winRate = wins/count or 0,
totalProfit = sum, avgProfit = total/count or 0), and the end-to-end
scenario (one trade on `EURUSD+` with profit 45.5, 2024-09-01..2024-09-10,
day bars) passes validation and yields metrics
{tradesCount 1, wins 1, winRate 1, totalProfit 45.5, avgProfit 45.5} with
`symbols` containing the normalized form `EURUSD` of `EURUSD+`. -/
theorem C2_metrics_from_trades :
    (∀ trades : List Trade, metricsOf trades =
      ⟨trades.length,
        (trades.filter (fun t => decide (0 < tradeProfit t))).length,
        if trades.length = 0 then 0
          else (((trades.filter (fun t => decide (0 < tradeProfit t))).length : ℚ) /
            (trades.length : ℚ)),
        (trades.map tradeProfit).sum,
        if trades.length = 0 then 0
          else (trades.map tradeProfit).sum / (trades.length : ℚ)⟩)
    ∧ analyzePeriodRun c2Body = ⟨none, [Effect.fetchCandles "EURUSD+".toList]⟩
    ∧ structuredInsightsOf c2Body
        = ⟨["EURUSD".toList], ⟨1, 1, 1, 91 / 2, 91 / 2⟩⟩
    ∧ "EURUSD".toList ∈ (structuredInsightsOf c2Body).symbols := by
  have hsym : (symbolSetOf c2Body).map normalizeJournalSymbol = ["EURUSD".toList] := by
    decide
  have hmet : metricsOf c2Body.trades = ⟨1, 1, 1, 91 / 2, 91 / 2⟩ := by
    rw [metricsOf_closed_form]
    simp only [c2Body, tradeProfit, List.filter, List.map, List.length_cons,
      List.length_nil, List.sum_cons, List.sum_nil, Option.getD_some]
    norm_num
  have h3 : structuredInsightsOf c2Body
      = ⟨["EURUSD".toList], ⟨1, 1, 1, 91 / 2, 91 / 2⟩⟩ := by
    unfold structuredInsightsOf
    rw [hsym, hmet]
  refine ⟨metricsOf_closed_form, by decide, h3, ?_⟩
  rw [h3]
  simp

/-- Claim C3: the gateway retries exactly on a timeout, a transient network
error, or an HTTP 429/5xx status, sleeping `base * 2^(attempt-1)` before
retry number `attempt`; a non-retryable failure immediately throws with the
upstream status (502 when unknown); exhausted retries throw 504 for a
timeout, otherwise the upstream status or 502. -/
theorem C3_retry_policy (mr b : ℕ) (pre : List RetryErr)
    (hall : ∀ f ∈ pre, isRetryable f = true) (e : RetryErr) (rest : List RetryErr) :
    (∀ f : RetryErr, isRetryable f
        = (f.timeout || f.transient || retryableByStatus f.status))
    ∧ backoffDelays b pre.length 0 = (List.range pre.length).map (fun i => b * 2 ^ i)
    ∧ (pre.length ≤ mr →
        fetchWithRetry mr b pre = .success (backoffDelays b pre.length 0))
    ∧ (pre.length ≤ mr → isRetryable e = false →
        fetchWithRetry mr b (pre ++ e :: rest)
          = .thrown (e.status.getD 502) (backoffDelays b pre.length 0))
    ∧ (pre.length = mr → isRetryable e = true →
        fetchWithRetry mr b (pre ++ e :: rest)
          = .thrown (if e.timeout then 504 else e.status.getD 502)
              (backoffDelays b pre.length 0)) := by
  refine ⟨fun f => rfl, by simp [backoffDelays], ?_, ?_, ?_⟩
  · intro hlen
    exact fetchWithRetry_success mr b pre hall hlen
  · intro hlen he
    exact fetchWithRetry_nonretryable mr b pre hall hlen e he rest
  · intro hlen he
    exact fetchWithRetry_exhausted mr b pre hall hlen e he rest

/-- Witness for C3: one retryable timeout then a non-retryable HTTP 404 —
the loop sleeps once (base 100ms) and throws with code 404. -/
theorem C3_retry_policy_witness :
    fetchWithRetry 3 100 ([⟨true, false, none⟩] ++ ⟨false, false, some 404⟩ :: [])
      = .thrown 404 (backoffDelays 100 1 0) := by
  have h := (C3_retry_policy 3 100 [⟨true, false, none⟩] (by decide)
    ⟨false, false, some 404⟩ []).2.2.2.1 (by decide) (by decide)
  simpa using h

/-- Claim C9: a request whose (valid) date range exceeds the
per-granularity cap is rejected with a 400 client error before any
upstream candle fetch, leaving caches and storage untouched. -/
theorem C9_range_cap (b : AnalysisRequestBody) (f t : ℤ)
    (hf : b.fromField = .ok f) (ht : b.toField = .ok t)
    (hd : diffDaysUTC f t > MAX_RANGE_DAYS (timespanOf b)) :
    ∃ e : ErrResp, analyzePeriodRun b = ⟨some e, []⟩ ∧ e.status = 400 := by
  unfold analyzePeriodRun analyzeValidate
  by_cases hs : (symbolSetOf b).length = 0
  · rw [if_pos hs]
    exact ⟨⟨400, 0⟩, rfl, rfl⟩
  · rw [if_neg hs]
    rw [if_neg (by rw [hf, ht]; rintro (h | h) <;> cases h)]
    rw [hf, ht]
    simp only [hd, if_pos, ite_true]
    exact ⟨⟨400, 3⟩, rfl, rfl⟩

/-- Witness for C9: a 30-day range with minute granularity (cap 7 days) is
rejected with status 400 and no fetch effect. -/
theorem C9_range_cap_witness :
    ∃ e : ErrResp,
      analyzePeriodRun
        { symbols := ["EURUSD".toList], trades := [],
          fromField := .ok 0, toField := .ok 2592000000,
          timespan := some .minute } = ⟨some e, []⟩ ∧ e.status = 400 :=
  C9_range_cap _ 0 2592000000 rfl rfl (by decide)

/-- Claim C10: a trade whose profit field is absent/null/falsy is treated
as profit 0: the metrics are the same as with an explicit profit 0, the
trade still counts into `tradesCount`, it is never a win, and it
contributes nothing to `totalProfit`. -/
theorem C10_falsy_profit (ts1 ts2 : List Trade) (t : Trade) (ht : t.profit = none) :
    metricsOf (ts1 ++ t :: ts2) = metricsOf (ts1 ++ { t with profit := some 0 } :: ts2)
    ∧ (metricsOf (ts1 ++ t :: ts2)).tradesCount = (ts1 ++ t :: ts2).length
    ∧ (metricsOf (ts1 ++ t :: ts2)).wins = (metricsOf (ts1 ++ ts2)).wins
    ∧ (metricsOf (ts1 ++ t :: ts2)).totalProfit = (metricsOf (ts1 ++ ts2)).totalProfit := by
  have hp : tradeProfit t = 0 := by
    unfold tradeProfit
    rw [ht]
    rfl
  have hp0 : tradeProfit { t with profit := some 0 } = 0 := rfl
  refine ⟨?_, ?_, ?_, ?_⟩
  · unfold metricsOf
    simp only [List.map_append, List.map_cons, hp, hp0]
  · rw [metricsOf_closed_form]
  · rw [metricsOf_closed_form, metricsOf_closed_form]
    simp only [List.filter_append, List.filter_cons, hp]
    norm_num
  · rw [metricsOf_closed_form, metricsOf_closed_form]
    simp only [List.map_append, List.map_cons, hp, List.sum_append, List.sum_cons]
    ring

/-- Witness for C10: a single trade with absent profit yields metrics equal
to those of the same trade with profit 0. -/
theorem C10_falsy_profit_witness :
    metricsOf ([] ++ (⟨some "EURUSD".toList, none, none⟩ : Trade) :: [])
      = metricsOf ([] ++ ({ (⟨some "EURUSD".toList, none, none⟩ : Trade) with
          profit := some 0 } : Trade) :: [])
    ∧ (metricsOf ([] ++ (⟨some "EURUSD".toList, none, none⟩ : Trade) :: [])).tradesCount
      = ([] ++ (⟨some "EURUSD".toList, none, none⟩ : Trade) :: []).length :=
  ⟨(C10_falsy_profit [] [] ⟨some "EURUSD".toList, none, none⟩ rfl).1,
   (C10_falsy_profit [] [] ⟨some "EURUSD".toList, none, none⟩ rfl).2.1⟩

theorem diffDaysUTC_eq_ceil (f t : ℤ) :
    diffDaysUTC f t = max 0 ⌈((t - f : ℤ) : ℚ) / ((24 * 60 * 60 * 1000 : ℕ) : ℚ)⌉ := by
  unfold diffDaysUTC
  congr 1
  have h1 : ((t - f : ℤ) : ℚ) / ((24 * 60 * 60 * 1000 : ℕ) : ℚ)
      = -(((f - t : ℤ) : ℚ) / ((86400000 : ℕ) : ℚ)) := by
    push_cast
    ring
  rw [h1, Int.ceil_neg, Rat.floor_intCast_div_natCast]
  norm_num

/-- Claim C4: for period P ≤ L, each of sma/ema/rsi/atr returns exactly L
outputs, and every position before the warm-up index (P-1 for sma, P for
rsi, P for atr) is the NaN sentinel. -/
theorem C4_indicator_lengths_warmup (values : List JsNum) (candles : List MarketCandle)
    (period : ℕ) (hv : period ≤ values.length) (hc : period ≤ candles.length) :
    (sma values period).length = values.length
    ∧ (ema values period).length = values.length
    ∧ (rsi values period).length = values.length
    ∧ (atr candles period).length = candles.length
    ∧ (∀ j, j + 1 < period → (sma values period)[j]? = some none)
    ∧ (∀ j, j < period → (rsi values period)[j]? = some none)
    ∧ (∀ j, j < period → (atr candles period)[j]? = some none) := by
  refine ⟨sma_length values period, ema_length values period, rsi_length values period,
    atr_length candles period, ?_, rsi_warmup values period hv, ?_⟩
  · intro j hj
    exact sma_warmup values period j (by omega) hj
  · intro j hj
    exact atr_warmup candles period j (by omega) hj

/-- Witness for C4 at a 2-element series with period 2. -/
theorem C4_indicator_lengths_warmup_witness :
    (sma [some 1, some 2] 2).length = [some 1, some 2].length
    ∧ (ema [some 1, some 2] 2).length = [some 1, some 2].length
    ∧ (rsi [some 1, some 2] 2).length = [some 1, some 2].length
    ∧ (atr c4Candles 2).length = c4Candles.length
    ∧ (∀ j, j + 1 < 2 → (sma [some 1, some 2] 2)[j]? = some none)
    ∧ (∀ j, j < 2 → (rsi [some 1, some 2] 2)[j]? = some none)
    ∧ (∀ j, j < 2 → (atr c4Candles 2)[j]? = some none) :=
  C4_indicator_lengths_warmup [some 1, some 2] c4Candles 2 (by decide) (by decide)

/-- Claim C5: the relevance score is +3 for a symbol mention, +1 per
distinct keyword hit capped at 5, plus up to 2 scaled by the clamped
recency fraction; an article mentioning the symbol scores strictly higher
than an otherwise-identical one that does not; candidates are stably
sorted by score descending with publish-time-descending tie-break and
truncated to the per-symbol limit. -/
theorem C5_news_relevance (symLower : List Char) (kwLower : List (List Char))
    (fromMs spanMs nowMs : ℚ) (maxPerSymbol : ℕ) (merged : List RawArticle)
    (a b : RawArticle) :
    (∀ c : RawArticle, scoreArticle symLower kwLower fromMs spanMs nowMs c
        = (if includesStr (articleText c) symLower then (3 : ℚ) else 0)
          + ((min 5 ((kwLower.filter (fun kw =>
              decide (kw ≠ []) && includesStr (articleText c) kw)).length) : ℕ) : ℚ)
          + recencyFrac fromMs spanMs (c.publishedAt.getD nowMs) * 2)
    ∧ (a.publishedAt = b.publishedAt → articleText b <:+: articleText a →
        includesStr (articleText a) symLower = true →
        includesStr (articleText b) symLower = false →
        scoreArticle symLower kwLower fromMs spanMs nowMs b
          < scoreArticle symLower kwLower fromMs spanMs nowMs a)
    ∧ ((newsScored symLower kwLower fromMs spanMs nowMs merged).mergeSort
        newsCmp).Pairwise (fun x y => newsCmp x y = true)
    ∧ List.Perm ((newsScored symLower kwLower fromMs spanMs nowMs merged).mergeSort
        newsCmp) (newsScored symLower kwLower fromMs spanMs nowMs merged)
    ∧ (newsSelect symLower kwLower fromMs spanMs nowMs maxPerSymbol merged).length
        ≤ maxPerSymbol
    ∧ newsSelect symLower kwLower fromMs spanMs nowMs maxPerSymbol merged
        = (((newsScored symLower kwLower fromMs spanMs nowMs merged).mergeSort
            newsCmp).take maxPerSymbol).map ScoredArticle.art := by
  refine ⟨?_, ?_, ?_, List.mergeSort_perm _ _, ?_, rfl⟩
  · intro c
    unfold scoreArticle
    simp only []
    rw [keywordHitsGo_closed (articleText c) kwLower 0 (by omega)]
    rw [Nat.zero_add]
  · intro h1 h2 h3 h4
    exact scoreArticle_strict symLower kwLower fromMs spanMs nowMs a b h1 h2 h3 h4
  · apply List.sorted_mergeSort
    · intro x y z hxy hyz
      simp only [newsCmp, decide_eq_true_eq] at hxy hyz ⊢
      rcases hxy with h | ⟨he, ht⟩
      · rcases hyz with h' | ⟨he', ht'⟩
        · exact Or.inl (lt_trans h' h)
        · exact Or.inl (he' ▸ h)
      · rcases hyz with h' | ⟨he', ht'⟩
        · exact Or.inl (he ▸ h')
        · exact Or.inr ⟨he.trans he', le_trans ht' ht⟩
    · intro x y
      simp only [newsCmp, Bool.or_eq_true, decide_eq_true_eq]
      rcases lt_trichotomy x.score y.score with h | h | h
      · exact Or.inr (Or.inl h)
      · rcases le_total x.t y.t with ht | ht
        · exact Or.inr (Or.inr ⟨h.symm, ht⟩)
        · exact Or.inl (Or.inr ⟨h, ht⟩)
      · exact Or.inl (Or.inl h)
  · unfold newsSelect
    rw [List.length_map, List.length_take]
    exact min_le_left _ _

/-- Witness for C5: the mentioning article strictly outscores the
otherwise-identical non-mentioning one. -/
theorem C5_news_relevance_witness :
    scoreArticle "eurusd".toList [] 0 1 0 c5ArticleB
      < scoreArticle "eurusd".toList [] 0 1 0 c5ArticleA :=
  (C5_news_relevance "eurusd".toList [] 0 1 0 1 [] c5ArticleA c5ArticleB).2.1
    rfl (by decide) (by decide) (by decide)

/-- Claim C6: `findCandleIndexAtOrBefore` returns -1 on an empty series, 0
when the timestamp precedes the first candle, the last index when it is at
or after the last candle, the matching index on an exact match, and
otherwise the index of the latest candle with `t <= ts`. -/
theorem C6_findCandleIndexAtOrBefore (candles : List MarketCandle) (tsq : ℚ)
    (hsort : candles.Pairwise (fun a b => a.t < b.t)) :
    (candles.length = 0 → findCandleIndexAtOrBefore candles tsq = -1)
    ∧ (0 < candles.length → tsq < timeAt candles 0 →
        findCandleIndexAtOrBefore candles tsq = 0)
    ∧ (0 < candles.length → timeAt candles (candles.length - 1) ≤ tsq →
        findCandleIndexAtOrBefore candles tsq = (candles.length : ℤ) - 1)
    ∧ (∀ k, k < candles.length → timeAt candles k = tsq →
        findCandleIndexAtOrBefore candles tsq = (k : ℤ))
    ∧ (0 < candles.length → timeAt candles 0 ≤ tsq →
        0 ≤ findCandleIndexAtOrBefore candles tsq
        ∧ findCandleIndexAtOrBefore candles tsq < (candles.length : ℤ)
        ∧ timeAt candles (findCandleIndexAtOrBefore candles tsq).toNat ≤ tsq
        ∧ ∀ k, k < candles.length → timeAt candles k ≤ tsq →
            (k : ℤ) ≤ findCandleIndexAtOrBefore candles tsq) := by
  refine ⟨?_, ?_, ?_, ?_, ?_⟩
  · intro h0
    rw [List.length_eq_zero.mp h0]
    exact findCandle_empty tsq
  · intro hl hlt
    exact findCandle_before_first candles tsq hl (le_of_lt hlt)
  · intro hl hge
    exact findCandle_after_last candles tsq hsort hl hge
  · intro k hk heq
    exact findCandle_exact candles tsq hsort k hk heq
  · intro hl hle
    rcases eq_or_lt_of_le hle with heq | hlt
    · have hres : findCandleIndexAtOrBefore candles tsq = 0 :=
        findCandle_before_first candles tsq hl (le_of_eq heq.symm)
      rw [hres]
      refine ⟨le_refl 0, by exact_mod_cast hl, ?_, ?_⟩
      · show timeAt candles (0 : ℤ).toNat ≤ tsq
        rw [Int.toNat_zero]
        exact le_of_eq heq
      · intro k hk hkle
        by_contra hcon
        push_neg at hcon
        have hk1 : 1 ≤ k := by exact_mod_cast hcon
        have hsort2 : (candles.map MarketCandle.t).Pairwise (· < ·) :=
          List.pairwise_map.mpr hsort
        have := sorted_getD_lt (candles.map MarketCandle.t) hsort2 0 k
          (by omega) (by rw [List.length_map]; omega)
        unfold timeAt at heq hkle
        rw [heq] at this
        exact absurd hkle (not_le.mpr this)
    · exact findCandle_master candles tsq hsort hl hlt

/-- Witness for C6 at the concrete series and timestamp 15. -/
theorem C6_findCandleIndexAtOrBefore_witness :
    (c6Candles.length = 0 → findCandleIndexAtOrBefore c6Candles 15 = -1)
    ∧ (0 < c6Candles.length → (15 : ℚ) < timeAt c6Candles 0 →
        findCandleIndexAtOrBefore c6Candles 15 = 0)
    ∧ (0 < c6Candles.length → timeAt c6Candles (c6Candles.length - 1) ≤ 15 →
        findCandleIndexAtOrBefore c6Candles 15 = (c6Candles.length : ℤ) - 1)
    ∧ (∀ k, k < c6Candles.length → timeAt c6Candles k = 15 →
        findCandleIndexAtOrBefore c6Candles 15 = (k : ℤ))
    ∧ (0 < c6Candles.length → timeAt c6Candles 0 ≤ 15 →
        0 ≤ findCandleIndexAtOrBefore c6Candles 15
        ∧ findCandleIndexAtOrBefore c6Candles 15 < (c6Candles.length : ℤ)
        ∧ timeAt c6Candles (findCandleIndexAtOrBefore c6Candles 15).toNat ≤ 15
        ∧ ∀ k, k < c6Candles.length → timeAt c6Candles k ≤ 15 →
            (k : ℤ) ≤ findCandleIndexAtOrBefore c6Candles 15) :=
  C6_findCandleIndexAtOrBefore c6Candles 15 (by decide)

/-- Counterexample to claim C7 as stated: the input `"C:EURUSD++"` breaks
idempotence — the first application strips only one trailing `+` and
returns `"C:EURUSD+"` (it contains `:`), the second strips the next `+`. -/
theorem C7_not_idempotent_counterexample :
    mapToPolygonForexTicker
        (mapToPolygonForexTicker "C:EURUSD++".toList defaultForexPrefix)
        defaultForexPrefix
      ≠ mapToPolygonForexTicker "C:EURUSD++".toList defaultForexPrefix := by
  decide

/-- Claim C7 as amended: with the default prefix, the mapping is idempotent
on every input whose normalized form, when it contains the namespace
separator, is itself journal-normalization-stable (the counterexample
`"C:EURUSD++"` violates that proviso); `EURUSD`, `eurusd` and `EURUSD+` all
map to `C:EURUSD`; an input containing `:` is returned as its
journal-normalized form (trimmed, uppercased, one trailing `+` stripped)
with no prefixing or substitution, hence unchanged whenever it is already
in that normal form. -/
theorem C7_normalization_amended :
    (∀ s : List Char,
      (':' ∈ normalizeJournalSymbol s →
        normalizeJournalSymbol (normalizeJournalSymbol s) = normalizeJournalSymbol s) →
      mapToPolygonForexTicker (mapToPolygonForexTicker s defaultForexPrefix)
          defaultForexPrefix
        = mapToPolygonForexTicker s defaultForexPrefix)
    ∧ (mapToPolygonForexTicker "EURUSD".toList defaultForexPrefix = "C:EURUSD".toList
      ∧ mapToPolygonForexTicker "eurusd".toList defaultForexPrefix = "C:EURUSD".toList
      ∧ mapToPolygonForexTicker "EURUSD+".toList defaultForexPrefix = "C:EURUSD".toList)
    ∧ (∀ (s P : List Char), ':' ∈ s →
        mapToPolygonForexTicker s P = normalizeJournalSymbol s)
    ∧ (∀ (s P : List Char), ':' ∈ s → normalizeJournalSymbol s = s →
        mapToPolygonForexTicker s P = s) := by
  refine ⟨fun s h => mapToPolygon_idempotent_main s h,
    ⟨by decide, by decide, by decide⟩,
    fun s P h => mapToPolygonForexTicker_colon s P h, ?_⟩
  intro s P h hstable
  rw [mapToPolygonForexTicker_colon s P h, hstable]

/-- Witness for C7: idempotence at `"EURUSD+"` and identity on the
already-canonical `"C:EURUSD"`. -/
theorem C7_normalization_amended_witness :
    mapToPolygonForexTicker
        (mapToPolygonForexTicker "EURUSD+".toList defaultForexPrefix)
        defaultForexPrefix
      = mapToPolygonForexTicker "EURUSD+".toList defaultForexPrefix
    ∧ mapToPolygonForexTicker "C:EURUSD".toList defaultForexPrefix
      = "C:EURUSD".toList :=
  ⟨C7_normalization_amended.1 "EURUSD+".toList (by decide),
   C7_normalization_amended.2.2.2 "C:EURUSD".toList defaultForexPrefix
     (by decide) (by decide)⟩

/-- Claim C8: when the primary structured-JSON flow fails with a
transport/model error (first call raised, or first returned unparsable
text and the reprompt raised), `analyzeTradingDataJSON` does not throw: it
runs the fallback flow; with a configured fallback model different from
the primary it calls that model exactly once and distinguishes the
invalid-JSON outcome (raw text + `invalid_json`) from the call-failed
outcome (`json_analysis_failed`); without a usable fallback it reports
`json_analysis_failed` directly. -/
theorem C8_gemini_error_flow (α : Type) (cfg : GeminiConfig)
    (parse : List Char → Except (List Char) α) (first second fb : CallAttempt)
    (hinit : cfg.initialized = true)
    (herr : first = .raised
      ∨ ∃ t1 r1, first = .returned t1 ∧ parse t1 = .error r1 ∧ second = .raised) :
    analyzeTradingDataJSON cfg parse first second fb
      = .ok (geminiFallbackFlow cfg parse fb)
    ∧ (∀ f, cfg.fallbackModel = some f → f ≠ cfg.modelName →
        (geminiFallbackFlow cfg parse fb).2 = [f]
        ∧ (fb = .raised → (geminiFallbackFlow cfg parse fb).1
            = ⟨none, none, some "json_analysis_failed".toList, none⟩)
        ∧ (∀ t r, fb = .returned t → parse t = .error r →
            (geminiFallbackFlow cfg parse fb).1
              = ⟨none, some t, some "invalid_json".toList, some f⟩)
        ∧ (∀ t ai, fb = .returned t → parse t = .ok ai →
            (geminiFallbackFlow cfg parse fb).1 = ⟨some ai, none, none, some f⟩))
    ∧ ((cfg.fallbackModel = none ∨ cfg.fallbackModel = some cfg.modelName) →
        geminiFallbackFlow cfg parse fb
          = (⟨none, none, some "json_analysis_failed".toList, none⟩, [])) := by
  refine ⟨?_, ?_, ?_⟩
  · unfold analyzeTradingDataJSON
    rw [hinit]
    simp only [Bool.true_eq_false, if_neg, not_false_eq_true, ite_false, if_false]
    rcases herr with hf | ⟨t1, r1, hf, hp, hs⟩
    · rw [hf]
    · rw [hf, hs]
      simp only [hp]
  · intro f hf hne
    unfold geminiFallbackFlow
    rw [hf]
    unfold geminiFallbackFlowCore
    simp only [hne, ne_eq, not_false_eq_true, if_pos, ite_true]
    refine ⟨?_, ?_, ?_, ?_⟩
    · cases fb with
      | raised => rfl
      | returned t => cases hp : parse t <;> simp [hp]
    · intro hfb
      rw [hfb]
    · intro t r hfb hp
      rw [hfb]
      simp only [hp]
    · intro t ai hfb hp
      rw [hfb]
      simp only [hp]
  · rintro (h | h) <;> unfold geminiFallbackFlow <;> rw [h] <;>
      unfold geminiFallbackFlowCore
    · rfl
    · simp

/-- Witness for C8: primary call raised, fallback returns unparsable text —
no exception, fallback called once, `invalid_json` with the raw text. -/
theorem C8_gemini_error_flow_witness :
    analyzeTradingDataJSON c8Cfg c8Parse .raised .raised (.returned "no".toList)
      = .ok (geminiFallbackFlow c8Cfg c8Parse (.returned "no".toList))
    ∧ (geminiFallbackFlow c8Cfg c8Parse (.returned "no".toList)).2 = ["f".toList]
    ∧ (geminiFallbackFlow c8Cfg c8Parse (.returned "no".toList)).1
      = ⟨none, some "no".toList, some "invalid_json".toList, some "f".toList⟩ := by
  have h := C8_gemini_error_flow ℕ c8Cfg c8Parse .raised .raised
    (.returned "no".toList) rfl (Or.inl rfl)
  have h2 := h.2.1 "f".toList rfl (by decide)
  exact ⟨h.1, h2.1, h2.2.2.1 "no".toList "bad".toList rfl rfl⟩
